import Mathlib

/-!
Verification model of the PRINS log-model-inference core
(`src/automata/NFA.py`, `src/automata/DFA.py`, `src/automata/automata_utils.py`,
`src/main/PRINS.py`).

The Python code is shallowly embedded: every Python set becomes a `Finset`,
every dict becomes an association list that keeps the dict's insertion order
(needed because `nfa_guarded_transition` scans `transitions.keys()` in order
and returns the first match), Python `assert`/`raise`/`exit` become
`Except.error`, and in-place mutation becomes explicit value passing.
Guard strings are embedded as a small AST covering the guard grammar the
models use (comparisons between positional variables and string literals,
`and`/`or`), evaluated like `evaluate` in `automata_utils.py`.
-/

namespace Prins

/-- Decidable equality of `Except` values (missing from the core library);
it lets concrete pipeline runs be checked by `decide`. -/
instance {ε α : Type} [DecidableEq ε] [DecidableEq α] :
    DecidableEq (Except ε α) := fun x y =>
  match x, y with
  | .ok a, .ok b =>
      if h : a = b then .isTrue (congrArg Except.ok h)
      else .isFalse (fun hh => h (Except.ok.inj hh))
  | .error a, .error b =>
      if h : a = b then .isTrue (congrArg Except.error h)
      else .isFalse (fun hh => h (Except.error.inj hh))
  | .ok _, .error _ => .isFalse Except.noConfusion
  | .error _, .ok _ => .isFalse Except.noConfusion

/-! ## Decimal rendering of integers (Python `str` on `int`)

Python renames states with `str(i + padding)`.  The printer below is decimal
rendering written with explicit fuel so that it reduces inside the kernel;
`natStr_inj`/`intStr_inj` establish that distinct integers get distinct names.
-/

/-- One decimal digit to its character. -/
def digitChar (d : Nat) : Char := Char.ofNat (48 + d)

/-- Decimal digits of `n`, least-significant first, with explicit fuel. -/
def natDigitsRev (fuel n : Nat) : List Nat :=
  match fuel with
  | 0 => []
  | f + 1 => if n < 10 then [n] else n % 10 :: natDigitsRev f (n / 10)

/-- Decimal rendering of a natural number, as Python `str` produces it. -/
def natStr (n : Nat) : String :=
  String.mk (((natDigitsRev (n + 1) n).reverse).map digitChar)

/-- Decimal rendering of an integer, as Python `str` produces it. -/
def intStr (i : Int) : String :=
  if i < 0 then String.mk ('-' :: (natStr (-i).toNat).data) else natStr i.toNat

/-- Value of a least-significant-first digit list. -/
def digitsVal : List Nat → Nat
  | [] => 0
  | d :: ds => d + 10 * digitsVal ds

theorem digitsVal_natDigitsRev (fuel n : Nat) (h : n < fuel) :
    digitsVal (natDigitsRev fuel n) = n := by
  induction fuel generalizing n with
  | zero => omega
  | succ f ih =>
    by_cases h10 : n < 10
    · simp [natDigitsRev, h10, digitsVal]
    · have hlt : n / 10 < f := by omega
      simp only [natDigitsRev, h10, if_false, digitsVal, ih _ hlt]
      omega

theorem natDigitsRev_lt (fuel n : Nat) : ∀ d ∈ natDigitsRev fuel n, d < 10 := by
  induction fuel generalizing n with
  | zero => simp [natDigitsRev]
  | succ f ih =>
    intro d hd
    by_cases h10 : n < 10
    · simp [natDigitsRev, h10] at hd; omega
    · simp only [natDigitsRev, h10, if_false, List.mem_cons] at hd
      rcases hd with rfl | hd
      · omega
      · exact ih _ d hd

theorem digitChar_inj {d e : Nat} (hd : d < 10) (he : e < 10)
    (h : digitChar d = digitChar e) : d = e := by
  interval_cases d <;> interval_cases e <;> simp_all [digitChar]

theorem map_digitChar_inj : ∀ l1 l2 : List Nat, (∀ a ∈ l1, a < 10) → (∀ a ∈ l2, a < 10) →
    l1.map digitChar = l2.map digitChar → l1 = l2 := by
  intro l1
  induction l1 with
  | nil => intro l2 _ _ h; cases l2 <;> simp_all
  | cons a l ih =>
    intro l2 h1 h2 h
    cases l2 with
    | nil => simp at h
    | cons b l' =>
      simp only [List.map_cons, List.cons.injEq] at h
      have hab : a = b := digitChar_inj (h1 a (by simp)) (h2 b (by simp)) h.1
      have := ih l' (fun x hx => h1 x (by simp [hx])) (fun x hx => h2 x (by simp [hx])) h.2
      simp [hab, this]

theorem natStr_inj {m n : Nat} (h : natStr m = natStr n) : m = n := by
  have hdata : (((natDigitsRev (m + 1) m).reverse).map digitChar)
      = (((natDigitsRev (n + 1) n).reverse).map digitChar) := by
    have := congrArg String.data h
    simpa [natStr] using this
  have hdig : (natDigitsRev (m + 1) m).reverse = (natDigitsRev (n + 1) n).reverse := by
    apply map_digitChar_inj _ _ _ _ hdata
    · intro a ha
      exact natDigitsRev_lt _ _ a (List.mem_reverse.mp ha)
    · intro a ha
      exact natDigitsRev_lt _ _ a (List.mem_reverse.mp ha)
  have hdig' : natDigitsRev (m + 1) m = natDigitsRev (n + 1) n :=
    List.reverse_injective hdig
  have h1 := digitsVal_natDigitsRev (m + 1) m (by omega)
  have h2 := digitsVal_natDigitsRev (n + 1) n (by omega)
  rw [← h1, ← h2, hdig']

theorem natDigitsRev_ne_nil (fuel n : Nat) (h : 0 < fuel) :
    natDigitsRev fuel n ≠ [] := by
  match fuel with
  | f + 1 =>
    by_cases h10 : n < 10 <;> simp [natDigitsRev, h10]

theorem natStr_head_digit (n : Nat) :
    ∃ c cs, (natStr n).data = c :: cs ∧ c ≠ '-' := by
  have hne := natDigitsRev_ne_nil (n + 1) n (by omega)
  rcases hrev : (natDigitsRev (n + 1) n).reverse with _ | ⟨d, ds⟩
  · exact absurd (by simpa using congrArg List.reverse hrev) hne
  · refine ⟨digitChar d, ds.map digitChar, ?_, ?_⟩
    · simp [natStr, hrev]
    · have hd : d < 10 := natDigitsRev_lt _ _ d (by
        have := List.mem_reverse.mp (hrev ▸ List.mem_cons_self d ds)
        exact this)
      interval_cases d <;> simp [digitChar]

theorem intStr_inj {i j : Int} (h : intStr i = intStr j) : i = j := by
  unfold intStr at h
  by_cases hi : i < 0 <;> by_cases hj : j < 0
  · simp only [hi, hj, if_true] at h
    have hdata := congrArg String.data h
    simp only [String.data] at hdata
    have : (natStr (-i).toNat).data = (natStr (-j).toNat).data := by
      have := congrArg String.data h
      simpa using this
    have heq : natStr (-i).toNat = natStr (-j).toNat := by
      cases hmk : natStr (-i).toNat with
      | mk da =>
        cases hmk2 : natStr (-j).toNat with
        | mk db =>
          have : da = db := by
            have h1 := congrArg String.data hmk
            have h2 := congrArg String.data hmk2
            simp at h1 h2
            rw [← h1, ← h2]; exact this
          rw [this]
    have := natStr_inj heq
    omega
  · exfalso
    simp only [hi, hj, if_true, if_false] at h
    obtain ⟨c, cs, hc, hcne⟩ := natStr_head_digit j.toNat
    have := congrArg String.data h
    simp [hc] at this
    exact hcne (by rw [← this.1])
  · exfalso
    simp only [hi, hj, if_true, if_false] at h
    obtain ⟨c, cs, hc, hcne⟩ := natStr_head_digit i.toNat
    have := congrArg String.data h
    simp [hc] at this
    exact hcne (by rw [this.1])
  · simp only [hi, hj, if_false] at h
    have := natStr_inj h
    omega

/-! ## Natural sort (the `natsort.natsorted` order)

`natsort` keys a string by splitting it into alternating non-digit/digit
chunks (a leading empty chunk when the string starts with a digit), digits
compared numerically and text chunks by code points, numbers sorting before
text.  We realise this as the pullback of the lexicographic linear order on
`List (ℕ ⊕ₗ List Char) ×ₗ List Char`; the second component breaks the ties
that Python would break by the unspecified iteration order of the input. -/

/-- A natural-sort token: a number chunk or a text chunk. -/
abbrev NatTok := ℕ ⊕ₗ List Char

/-- Numeric value of a decimal digit character. -/
def digitVal (c : Char) : Nat := c.toNat - 48

/-- Chunking pass of the natural-sort key; the second argument is the chunk
being accumulated (a number, or a reversed text chunk). -/
def tokGo : List Char → (Nat ⊕ List Char) → List NatTok
  | [], Sum.inl n => [Sum.inlₗ n]
  | [], Sum.inr acc => [Sum.inrₗ acc.reverse]
  | c :: r, Sum.inl n =>
      if c.isDigit then tokGo r (Sum.inl (10 * n + digitVal c))
      else Sum.inlₗ n :: tokGo r (Sum.inr [c])
  | c :: r, Sum.inr acc =>
      if c.isDigit then Sum.inrₗ acc.reverse :: tokGo r (Sum.inl (digitVal c))
      else tokGo r (Sum.inr (c :: acc))

/-- Natural-sort tokens of a character list: alternating text/number chunks
starting with a (possibly empty) text chunk. -/
def tokenize (cs : List Char) : List NatTok :=
  match cs with
  | [] => [Sum.inrₗ []]
  | c :: _ =>
      if c.isDigit then Sum.inrₗ [] :: tokGo cs (Sum.inl 0)
      else tokGo cs (Sum.inr [])

/-- The full natural-sort key of a string (token list, tie-broken by the
raw character list). -/
def natKey (s : String) : (List NatTok) ×ₗ (List Char) :=
  toLex (tokenize s.data, s.data)

/-- The natural-sort order on strings used to model `natsorted`. -/
def natLe (a b : String) : Prop := natKey a ≤ natKey b

instance : DecidableRel natLe := fun a b =>
  inferInstanceAs (Decidable (natKey a ≤ natKey b))

instance : IsTrans String natLe :=
  ⟨fun _ _ _ h1 h2 => le_trans h1 h2⟩

instance : IsTotal String natLe :=
  ⟨fun a b => le_total (natKey a) (natKey b)⟩

instance : IsAntisymm String natLe := by
  refine ⟨fun a b h1 h2 => ?_⟩
  have hk : natKey a = natKey b := le_antisymm h1 h2
  have hdata : a.data = b.data := congrArg (fun k => (ofLex k).2) hk
  cases a; cases b
  exact congrArg String.mk hdata

/-- `natsorted` on a list (ties broken by code points; see `natKey`). -/
def natsorted (l : List String) : List String := List.insertionSort natLe l

theorem natsorted_perm (l : List String) : (natsorted l).Perm l :=
  List.perm_insertionSort natLe l

theorem mem_natsorted {a : String} {l : List String} :
    a ∈ natsorted l ↔ a ∈ l := (natsorted_perm l).mem_iff

theorem natsorted_invariant {l l' : List String} (h : l.Perm l') :
    natsorted l = natsorted l' := by
  refine @List.eq_of_perm_of_sorted String natLe _ _ _ ?_ ?_ ?_
  · exact ((natsorted_perm l).trans h).trans (natsorted_perm l').symm
  · exact List.sorted_insertionSort natLe l
  · exact List.sorted_insertionSort natLe l'

/-- `natsorted` over a Python set (a `Finset`): well defined because the
sort result does not depend on the presentation of the underlying multiset. -/
def natsortedF (s : Finset String) : List String :=
  Quot.lift natsorted (fun _ _ h => natsorted_invariant h) s.1

theorem natsortedF_mk (l : List String) (h : l.Nodup) :
    natsortedF ⟨⟦l⟧, h⟩ = natsorted l := rfl

theorem mem_natsortedF {a : String} {s : Finset String} :
    a ∈ natsortedF s ↔ a ∈ s := by
  rcases s with ⟨ms, hn⟩
  induction ms using Quot.ind with
  | _ l => simpa [natsortedF] using (mem_natsorted (l := l))

theorem length_natsortedF (s : Finset String) : (natsortedF s).length = s.card := by
  rcases s with ⟨ms, hn⟩
  induction ms using Quot.ind with
  | _ l => simpa [natsortedF, Finset.card] using (natsorted_perm l).length_eq

theorem natsortedF_nodup (s : Finset String) : (natsortedF s).Nodup := by
  rcases s with ⟨ms, hn⟩
  induction ms using Quot.ind with
  | _ l =>
    have : l.Nodup := hn
    exact ((natsorted_perm l).nodup_iff).mpr this

/-! ## Guards and their evaluation (`automata_utils.evaluate`)

A guard is a boolean expression over positional variables `var0, var1, …`
and string literals, with comparison operators and `and`/`or` — the grammar
the learned models use.  `evaluate` receives the values already parsed into
a list of strings (the Python code parses the textual list literal first and
the parse is not part of the core).  A reference to an unbound variable is
Python's `NameError`, which `evaluate` turns into `exit(-1)`; we model that
fatal stop as `Except.error`. -/

/-- A guard operand: positional variable or string literal. -/
inductive GTerm
  | var (i : Nat)
  | lit (s : String)
deriving DecidableEq

/-- Comparison operators available in guards. -/
inductive Cmp
  | eq | ne | lt | le | gt | ge
deriving DecidableEq

/-- Guard expressions. -/
inductive Guard
  | cmp (op : Cmp) (a b : GTerm)
  | and (g h : Guard)
  | or (g h : Guard)
deriving DecidableEq

/-- Code-point lexicographic strict comparison of character lists
(Python string `<`). -/
def pyLtChars : List Char → List Char → Bool
  | [], [] => false
  | [], _ :: _ => true
  | _ :: _, [] => false
  | a :: as, b :: bs =>
      if a.toNat < b.toNat then true
      else if b.toNat < a.toNat then false
      else pyLtChars as bs

/-- Python string `<`. -/
def pyStrLt (a b : String) : Bool := pyLtChars a.data b.data

/-- Python string `<=`. -/
def pyStrLe (a b : String) : Bool := pyStrLt a b || a == b

/-- Semantics of one comparison on strings (Python comparison semantics). -/
def evalCmp (op : Cmp) (a b : String) : Bool :=
  match op with
  | .eq => a == b
  | .ne => a != b
  | .lt => pyStrLt a b
  | .le => pyStrLe a b
  | .gt => pyStrLt b a
  | .ge => pyStrLe b a

/-- Resolve an operand against the variable binding; an unbound variable is
a `NameError`. -/
def resolveTerm (env : Nat → Option String) : GTerm → Except String String
  | .var i =>
      match env i with
      | some v => .ok v
      | none => .error "NameError"
  | .lit s => .ok s

/-- Evaluate a guard expression against a binding, with Python's
short-circuit `and`/`or`. -/
def evalGuardE (env : Nat → Option String) : Guard → Except String Bool
  | .cmp op a b => do
      let va ← resolveTerm env a
      let vb ← resolveTerm env b
      pure (evalCmp op va vb)
  | .and g h => do
      let x ← evalGuardE env g
      if x then evalGuardE env h else pure false
  | .or g h => do
      let x ← evalGuardE env g
      if x then pure true else evalGuardE env h

/-- Cleaning of one value before binding: strip parentheses, then all
whitespace (the two `re.sub` calls in `evaluate`). -/
def cleanValue (v : String) : String :=
  String.mk (v.data.filter (fun c => !(c = '(' || c = ')' || c.isWhitespace)))

/-- Model of `automata_utils.evaluate`.  `values` is the list the Python
code obtains by parsing the textual list literal. -/
def evaluate (guard : Option Guard) (values : List String) : Except String Bool :=
  match guard with
  | none => .ok true
  | some g =>
      if values = [] then .ok false
      else evalGuardE (fun i => (values.map cleanValue).get? i) g

/-! ## Log entries, alphabet symbols, automaton structures -/

/-- A log entry.  The timestamp field is never read by any embedded
function and is omitted. -/
structure LogEntry where
  component : String
  tid : String
  values : List String
deriving DecidableEq

/-- An alphabet symbol: template id plus optional guard. -/
abbrev Word := String × Option Guard

/-- Transition mapping of an NFA, as an association list keeping the
Python dict's insertion order (several functions scan `keys()` in order). -/
abbrev TransList := List ((String × Word) × Finset String)

/-- First-match association lookup (Python dict indexing; dict keys are
unique, so the first match is the only one). -/
def lookupT (ts : TransList) (k : String × Word) : Option (Finset String) :=
  match ts with
  | [] => none
  | (k', v) :: r => if k' = k then some v else lookupT r k

/-- Python's `if key in d: d[key] |= v else: d[key] = v` pattern: union into
the existing entry, else append a fresh entry at the end. -/
def insertUnionT (ts : TransList) (k : String × Word) (v : Finset String) : TransList :=
  match ts with
  | [] => [(k, v)]
  | (k', v') :: r => if k' = k then (k', v' ∪ v) :: r else (k', v') :: insertUnionT r k v

/-- Python's double-splat dict merge: keys of the first dict in order with
values overridden by the second, then the second dict's new keys. -/
def dictMergeT (a b : TransList) : TransList :=
  a.map (fun e =>
      match lookupT b e.1 with
      | some v => (e.1, v)
      | none => e)
    ++ b.filter (fun e => (lookupT a e.1).isNone)

/-- The guarded FSM in NFA form (`NFA.py`). -/
structure NFA where
  component : String
  alphabet : Finset Word
  states : Finset String
  initial_state : String
  accepting_states : Finset String
  transitions : TransList

/-- Decidable equality of automata by fields, phrased so that it reduces
inside the kernel on concrete values. -/
instance : DecidableEq NFA := fun a b =>
  decidable_of_iff
    (a.component = b.component ∧ a.alphabet = b.alphabet ∧ a.states = b.states ∧
     a.initial_state = b.initial_state ∧ a.accepting_states = b.accepting_states ∧
     a.transitions = b.transitions)
    (by cases a; cases b; simp [NFA.mk.injEq, and_assoc])

/-- Python `','.join`. -/
def joinCommaData : List String → List Char
  | [] => []
  | [s] => s.data
  | s :: r :: rs => s.data ++ ',' :: joinCommaData (r :: rs)

/-- Python `','.join` on a list of strings. -/
def joinComma (l : List String) : String := String.mk (joinCommaData l)

/-- First index of a string in a list (used for dict-backed rename maps). -/
def idxOf : List String → String → Option Nat
  | [], _ => none
  | a :: r, s => if a = s then some 0 else (idxOf r s).map (fun n => n + 1)

/-! ## `NFA.nfa_guarded_transition` and `NFA.nfa_check_acceptance` -/

/-- Scan of `transitions.keys()` in dict order: return the first transition
from `source` whose tid matches and whose guard is absent, ignored, or
evaluates true (`nfa_guarded_transition`).  `Except` carries the fatal stop
of guard evaluation. -/
def guardedScan (ts : TransList) (source : String) (e : LogEntry) (ig : Bool) :
    Except String (Option (Finset String × Word)) :=
  match ts with
  | [] => .ok none
  | ((q, (tid, guard)), dst) :: r =>
      if q = source ∧ e.tid = tid then
        match guard with
        | none => .ok (some (dst, (tid, none)))
        | some g =>
            if ig then .ok (some (dst, (tid, some g)))
            else do
              let b ← evaluate (some g) e.values
              if b then .ok (some (dst, (tid, some g)))
              else guardedScan r source e ig
      else guardedScan r source e ig

/-- `NFA.nfa_guarded_transition`. -/
def NFA.nfa_guarded_transition (m : NFA) (source : String) (e : LogEntry)
    (ig : Bool) : Except String (Option (Finset String × Word)) :=
  guardedScan m.transitions source e ig

/-- One frontier member processed after another (Python iterates the set in
an unspecified order; the union result is order independent, so we fix the
natural sort order). -/
def NFA.stepFrontierAux (m : NFA) (e : LogEntry) :
    List String → Finset String → Except String (Finset String)
  | [], acc => .ok acc
  | q :: r, acc => do
      let res ← m.nfa_guarded_transition q e false
      match res with
      | some (d, _) => NFA.stepFrontierAux m e r (acc ∪ d)
      | none => NFA.stepFrontierAux m e r acc

/-- The level-by-level loop of `nfa_check_acceptance` (an empty transition
image is skipped by the Python truthiness test, which coincides with
unioning it). -/
def NFA.checkLoop (m : NFA) : Finset String → List LogEntry → Except String Bool
  | current, [] =>
      if (current ∩ m.accepting_states).Nonempty then .ok true else .ok false
  | current, e :: rest => do
      let next ← NFA.stepFrontierAux m e (natsortedF current) ∅
      if next.card < 1 then .ok false
      else NFA.checkLoop m next rest

/-- `NFA.nfa_check_acceptance`. -/
def NFA.nfa_check_acceptance (m : NFA) (l_vector : List LogEntry) :
    Except String Bool :=
  NFA.checkLoop m {m.initial_state} l_vector

/-! ## `NFA.merge_states` -/

/-- Transition redirection pass of `merge_states`: sources in the merged
set become the merged state, destination sets meeting it are rewritten, and
colliding keys are unioned in iteration order. -/
def mergeRedirect (ss : Finset String) (s_m : String) :
    TransList → TransList → TransList
  | [], acc => acc
  | ((src, w), dst) :: r, acc =>
      let src' := if src ∈ ss then s_m else src
      let dst' := if (dst ∩ ss).Nonempty then (dst \ ss) ∪ {s_m} else dst
      mergeRedirect ss s_m r (insertUnionT acc (src', w) dst')

/-- `NFA.merge_states`: merge several states at once.  The two leading
Python `assert`s become `Except.error`; on success the merged state name
and the updated automaton are returned. -/
def NFA.merge_states (m : NFA) (ss : Finset String) :
    Except String (String × NFA) :=
  if ss.card ≤ 1 then .error "assert: merge_states needs at least two states"
  else if ¬ ss ⊆ m.states then .error "assert: merge_states not a subset of states"
  else
    let s_m := joinComma (natsortedF ss)
    .ok (s_m,
      { component := m.component
        alphabet := m.alphabet
        states := (m.states \ ss) ∪ {s_m}
        initial_state := if m.initial_state ∈ ss then s_m else m.initial_state
        accepting_states :=
          (m.accepting_states \ ss) ∪
            (if (m.accepting_states ∩ ss).Nonempty then {s_m} else ∅)
        transitions := mergeRedirect ss s_m m.transitions [] })

/-! ## `NFA.rename_states` -/

/-- The rename dictionary of `rename_states`: position in the naturally
sorted state list, shifted by the padding.  States outside `Q` are left
unchanged (the Python dict lookup would be a `KeyError`; all source call
sites look up members of `Q` only). -/
def NFA.rename_map (m : NFA) (padding : Int) : String → String := fun s =>
  match idxOf (natsortedF m.states) s with
  | some i => intStr (i + padding)
  | none => s

/-- Transition rebuild of `rename_states`: every destination of an entry is
inserted under the renamed key; an entry with an empty destination set
contributes nothing. -/
def renameTrans (ρ : String → String) : TransList → TransList → TransList
  | [], acc => acc
  | ((src, w), dst) :: r, acc =>
      renameTrans ρ r
        (if dst = ∅ then acc else insertUnionT acc (ρ src, w) (dst.image ρ))

/-- `NFA.rename_states`: rename all states to `str(i + padding)` in natural
sort order, updating the initial state, accepting states and transitions
through the same map. -/
def NFA.rename_states (m : NFA) (padding : Int) : NFA :=
  let ρ := m.rename_map padding
  { component := m.component
    alphabet := m.alphabet
    states := m.states.image ρ
    initial_state := ρ m.initial_state
    accepting_states := m.accepting_states.image ρ
    transitions := renameTrans ρ m.transitions [] }

/-! ## `NFA.find_non_deterministic_states` -/

/-- Scan for the first transition image with more than one destination
outside the excluded set; an empty image is the fatal `exit(-1)`. -/
def findNonDetAux (ts : TransList) (excl : Finset String) :
    Except String (Option (Finset String)) :=
  match ts with
  | [] => .ok none
  | (_, dst) :: r =>
      if 1 < (dst \ excl).card then .ok (some (dst \ excl))
      else if dst.card = 0 then .error "exit: empty transition image"
      else findNonDetAux r excl

/-- `NFA.find_non_deterministic_states`.  The two optional parameters build
the excluded-state set only when both are truthy (non-empty dict, non-zero
limit); every call site in the source passes neither, i.e. `[]` and `0`. -/
def NFA.find_non_deterministic_states (m : NFA)
    (merge_count_per_state : List (String × Nat)) (per_state_merge_limit : Nat) :
    Except String (Option (Finset String)) :=
  let excl : Finset String :=
    if merge_count_per_state = [] ∨ per_state_merge_limit = 0 then ∅
    else ((merge_count_per_state.filter
            (fun p => per_state_merge_limit ≤ p.2)).map Prod.fst).toFinset
  findNonDetAux m.transitions excl

/-! ## `NFA.slice` -/

/-- The walking loop of `slice`: one guarded transition per entry, with a
second `ignore_guard` try, collecting visited states, words and transitions
into the sliced automaton being built. -/
def sliceGo (m : NFA) : List LogEntry → String → Finset Word → Finset String →
    TransList → Except String (Finset Word × Finset String × TransList × String)
  | [], curr, alph, sts, tr => .ok (alph, sts, tr, curr)
  | e :: rest, curr, alph, sts, tr => do
      let r1 ← m.nfa_guarded_transition curr e false
      let res ←
        match r1 with
        | some x => pure x
        | none => do
            let r2 ← m.nfa_guarded_transition curr e true
            match r2 with
            | some x => pure x
            | none => .error "ValueError: NFA.slice"
      let (next_states, word) := res
      if 2 ≤ next_states.card then .error "assert: more than one next state"
      else
        match natsortedF next_states with
        | [] => .error "IndexError: empty next state set"
        | next :: _ =>
            sliceGo m rest next (insert word alph) (insert next sts)
              (insertUnionT tr (curr, word) {next})

/-- `NFA.slice`: slice the model along `l_vector` starting at the cursor
state.  The source never assigns to `self`, so the unchanged model is
returned first, then the sliced automaton, then the updated cursor (the
value the source stores back into `slice_starting_states`). -/
def NFA.slice (m : NFA) (l_vector : List LogEntry) (cursor : String) :
    Except String (NFA × NFA × String) := do
  let nd ← m.find_non_deterministic_states [] 0
  if nd.isSome then .error "assert: slice requires a deterministic model"
  else do
    let (alph, sts, tr, final) ← sliceGo m l_vector cursor ∅ {cursor} []
    .ok (m,
      { component := m.component
        alphabet := alph
        states := sts
        initial_state := cursor
        accepting_states := {final}
        transitions := tr },
      final)

/-! ## `NFA.append` -/

/-- Split on commas (Python `str.split(',')`). -/
def splitCommaGo : List Char → List Char → List (List Char)
  | [], acc => [acc.reverse]
  | c :: r, acc =>
      if c = ',' then acc.reverse :: splitCommaGo r []
      else splitCommaGo r (c :: acc)

/-- Split a character list on commas. -/
def splitComma (cs : List Char) : List (List Char) := splitCommaGo cs []

/-- Python `int()` on a decimal digit string (the only shape the source
feeds it; other shapes raise `ValueError`, modelled as `none`). -/
def parseNatChars (cs : List Char) : Option Nat :=
  if cs = [] ∨ ¬ cs.all Char.isDigit then none
  else some (cs.foldl (fun acc c => 10 * acc + digitVal c) 0)

/-- `NFA.check_and_remove_redundant_states`: if the state sets intersect,
rename the second automaton beyond the numerically largest state suffix of
the first; the trailing `assert` (no intersection left) stays an error. -/
def NFA.check_and_remove_redundant_states (m : NFA) (nfa : NFA) :
    Except String NFA :=
  if (m.states ∩ nfa.states).Nonempty then
    match (natsortedF m.states).getLast? with
    | none => .error "IndexError: empty state list"
    | some last =>
        match (splitComma last.data).getLast? with
        | none => .error "IndexError: empty split"
        | some part =>
            match parseNatChars part with
            | none => .error "ValueError: int()"
            | some maxn =>
                let renamed := nfa.rename_states ((maxn : Int) + 1)
                if (m.states ∩ renamed.states).Nonempty then
                  .error "assert: redundant states remain"
                else .ok renamed
  else .ok nfa

/-- `NFA.append`: fuse the sole accepting state of `m` with the initial
state of `nfa` after making the state names disjoint.  `set.pop` on the
accepting singleton extracts its unique element. -/
def NFA.append (m : NFA) (nfa : NFA) : Except String NFA := do
  if m.accepting_states.card ≠ 1 then
    .error "assert: append needs exactly one accepting state"
  else
    match (natsortedF m.accepting_states).head? with
    | none => .error "KeyError: pop from an empty set"
    | some s_x => do
        let nfa' ← m.check_and_remove_redundant_states nfa
        let base : NFA :=
          { component := "appended"
            alphabet := m.alphabet ∪ nfa'.alphabet
            states := m.states ∪ nfa'.states
            initial_state := m.initial_state
            accepting_states := nfa'.accepting_states
            transitions := dictMergeT m.transitions nfa'.transitions }
        let (_, merged) ← base.merge_states {s_x, nfa'.initial_state}
        .ok merged

/-! ## `NFA.union_nfa_models` -/

/-- The per-model disjoint renaming pass of the union: rename each model
with the running padding, then advance the padding by its state count. -/
def unionRename : List NFA → Int → List NFA
  | [], _ => []
  | mo :: rest, pad =>
      let m' := mo.rename_states pad
      m' :: unionRename rest (pad + (m'.states.card : Int))

/-- `NFA.union_nfa_models`: disjointly rename all models, union their
fields, and merge the collected initial states.  The Python `None` initial
placeholder is modelled by `""`; it is overwritten with the merged state. -/
def NFA.union_nfa_models (models : List NFA) (system : String) :
    Except String NFA := do
  let renamed := unionRename models 0
  let base : NFA :=
    { component := system
      alphabet := renamed.foldl (fun a mo => a ∪ mo.alphabet) ∅
      states := renamed.foldl (fun a mo => a ∪ mo.states) ∅
      initial_state := ""
      accepting_states := renamed.foldl (fun a mo => a ∪ mo.accepting_states) ∅
      transitions := renamed.foldl (fun a mo => dictMergeT a mo.transitions) [] }
  let initials : Finset String := (renamed.map (fun mo => mo.initial_state)).toFinset
  let (s_m, merged) ← base.merge_states initials
  .ok { merged with initial_state := s_m }

/-! ## The DFA side (`DFA.py`) -/

/-- The guarded FSM in DFA form. -/
structure DFA where
  component : String
  alphabet : Finset Word
  states : Finset String
  initial_state : String
  accepting_states : Finset String
  transitions : List ((String × Word) × String)

/-- Decidable equality of DFAs by fields, phrased so that it reduces inside
the kernel on concrete values. -/
instance : DecidableEq DFA := fun a b =>
  decidable_of_iff
    (a.component = b.component ∧ a.alphabet = b.alphabet ∧ a.states = b.states ∧
     a.initial_state = b.initial_state ∧ a.accepting_states = b.accepting_states ∧
     a.transitions = b.transitions)
    (by cases a; cases b; simp [DFA.mk.injEq, and_assoc])

/-- Scan of the DFA transition dict in order, as in
`DFA.make_guarded_transition`. -/
def dfaScan (ts : List ((String × Word) × String)) (source : String)
    (e : LogEntry) (ig : Bool) : Except String (Option String) :=
  match ts with
  | [] => .ok none
  | ((q, (tid, guard)), dst) :: r =>
      if q = source ∧ e.tid = tid then
        match guard with
        | none => .ok (some dst)
        | some g =>
            if ig then .ok (some dst)
            else do
              let b ← evaluate (some g) e.values
              if b then .ok (some dst) else dfaScan r source e ig
      else dfaScan r source e ig

/-- `DFA.make_guarded_transition`. -/
def DFA.make_guarded_transition (d : DFA) (source : String) (e : LogEntry)
    (ig : Bool) : Except String (Option String) :=
  dfaScan d.transitions source e ig

/-- The walking loop of `dfa_check_acceptance`, with the one-shot
`ignore_guard=True` fallback. -/
def DFA.checkLoopD (d : DFA) : String → List LogEntry → Except String Bool
  | curr, [] => if curr ∈ d.accepting_states then .ok true else .ok false
  | curr, e :: rest => do
      let n1 ← d.make_guarded_transition curr e false
      match n1 with
      | some nxt => DFA.checkLoopD d nxt rest
      | none => do
          let n2 ← d.make_guarded_transition curr e true
          match n2 with
          | some nxt => DFA.checkLoopD d nxt rest
          | none => .ok false

/-- `DFA.dfa_check_acceptance`. -/
def DFA.dfa_check_acceptance (d : DFA) (l_vector : List LogEntry) :
    Except String Bool :=
  DFA.checkLoopD d d.initial_state l_vector

/-- `DFA.shorten_states` with `consider_set_names=False`: renumber states
`str(0) … str(n-1)` in natural sort order (same pattern as
`rename_states`). -/
def DFA.shorten_states_plain (d : DFA) : DFA :=
  let ρ : String → String := fun s =>
    match idxOf (natsortedF d.states) s with
    | some i => natStr i
    | none => s
  { component := d.component
    alphabet := d.alphabet
    states := d.states.image ρ
    initial_state := ρ d.initial_state
    accepting_states := d.accepting_states.image ρ
    transitions := d.transitions.map (fun e => ((ρ e.1.1, e.1.2), ρ e.2)) }

/-! ## Determinization (`heuristic_determinize`, `hybrid_determinize`,
`standard_determinize`) -/

/-- Pop an element from a destination set (`set.pop`), i.e. an arbitrary
element; the sole call site pops from singleton sets, where the choice is
forced.  We take the natural-sort minimum.  Popping from an empty set is
Python's `KeyError`. -/
def popEntry (dst : Finset String) : Except String (String × Finset String) :=
  match natsortedF dst with
  | [] => .error "KeyError: pop from an empty set"
  | x :: _ => .ok (x, dst.erase x)

/-- The DFA-transition building loop of `heuristic_determinize`: each image
set is popped; the receiver keeps the emptied sets. -/
def popAll : TransList →
    Except String (List ((String × Word) × String) × TransList)
  | [] => .ok ([], [])
  | (k, d) :: r => do
      let (x, d') ← popEntry d
      let (dfas, selfs) ← popAll r
      .ok ((k, x) :: dfas, (k, d') :: selfs)

/-- The merging loop of `heuristic_determinize`, with explicit fuel for the
unbounded `while True` (running out of fuel is an error, never a wrong
result). -/
def heuristicGo : Nat → NFA → Except String NFA
  | 0, _ => .error "fuel exhausted in the heuristic merging loop"
  | f + 1, m => do
      let nd ← m.find_non_deterministic_states [] 0
      match nd with
      | none => .ok m
      | some s => do
          let (_, m') ← m.merge_states s
          heuristicGo f m'

/-- `NFA.heuristic_determinize`: merge non-deterministic images until none
remain, then build the DFA by popping the now-singleton images and shorten
the state names.  Returns the DFA together with the receiver's final state
(the popped transition images stay emptied in `self`). -/
def NFA.heuristic_determinize (fuel : Nat) (m : NFA) :
    Except String (DFA × NFA) := do
  let m1 ← heuristicGo fuel m
  let (pairs, selfTrans) ← popAll m1.transitions
  let dfa0 : DFA :=
    { component := m1.component
      alphabet := m1.alphabet
      states := m1.states
      initial_state := m1.initial_state
      accepting_states := m1.accepting_states
      transitions := pairs }
  .ok (dfa0.shorten_states_plain, { m1 with transitions := selfTrans })

/-- A deterministic serialization of a guard, used only to order alphabet
symbols (see `wordLe`). -/
def serGTerm : GTerm → List Char
  | .var i => 'v' :: (natStr i).data
  | .lit s => 'l' :: s.data

/-- A deterministic serialization of a comparison operator. -/
def serCmp : Cmp → Char
  | .eq => 'e'
  | .ne => 'n'
  | .lt => 'l'
  | .le => 'm'
  | .gt => 'g'
  | .ge => 'h'

/-- A deterministic serialization of a guard expression. -/
def serGuard : Guard → List Char
  | .cmp op a b => 'c' :: serCmp op :: serGTerm a ++ '/' :: serGTerm b
  | .and g h => '&' :: serGuard g ++ '!' :: serGuard h
  | .or g h => '|' :: serGuard g ++ '!' :: serGuard h

/-- Sort key of an optional guard: absent guards first, then by
serialization. -/
def guardKey : Option Guard → (Unit ⊕ₗ List Char)
  | none => Sum.inlₗ ()
  | some g => Sum.inrₗ (serGuard g)

/-- Model of the `natsorted` iteration order over alphabet symbols in
`hybrid_determinize`: primarily the natural-sort key of the template id,
then the guard.  (Python natsort over `(tid, guard)` tuples is fragile when
guards mix `None` and strings; this fixes a deterministic order with the
same tid-major behaviour.) -/
def wordLe (a b : Word) : Prop :=
  (toLex (natKey a.1, guardKey a.2)) ≤ toLex (natKey b.1, guardKey b.2)

instance : DecidableRel wordLe := fun _ _ =>
  inferInstanceAs (Decidable (_ ≤ _))

/-- Words of a transition dict in first-appearance order, deduplicated. -/
def transWords : TransList → List Word
  | [] => []
  | ((_, w), _) :: r =>
      let rest := transWords r
      if w ∈ rest then rest else w :: rest

/-- The alphabet iteration list of `hybrid_determinize`.  Words of the
alphabet without any transition entry are skipped by the loop's membership
test, so only words occurring in the transition dict are enumerated. -/
def NFA.sortedWords (m : NFA) : List Word :=
  List.insertionSort wordLe (transWords m.transitions)

/-- Ordered-dict operations for `merge_count_per_state`. -/
def countLookup : List (String × Nat) → String → Option Nat
  | [], _ => none
  | (k, v) :: r, s => if k = s then some v else countLookup r s

/-- Remove a key from the count dict (`dict.pop`). -/
def countRemove : List (String × Nat) → String → List (String × Nat)
  | [], _ => []
  | (k, v) :: r, s => if k = s then countRemove r s else (k, v) :: countRemove r s

/-- Insert or overwrite a key in the count dict. -/
def countSet : List (String × Nat) → String → Nat → List (String × Nat)
  | [], s, n => [(s, n)]
  | (k, v) :: r, s, n => if k = s then (k, n) :: r else (k, v) :: countSet r s n

/-- Remove several keys from the count dict. -/
def countRemoveAll (counts : List (String × Nat)) (ks : List String) :
    List (String × Nat) :=
  ks.foldl (fun cs s => countRemove cs s) counts

/-- The `max(merge_count_per_state.pop(s) + 1, acc)` fold of the hybrid
loop; a missing key is Python's `KeyError`. -/
def computeMaxCount (counts : List (String × Nat)) :
    List String → Nat → Except String Nat
  | [], acc => .ok acc
  | s :: r, acc =>
      match countLookup counts s with
      | none => .error "KeyError: merge count"
      | some c => computeMaxCount counts r (max acc (c + 1))

/-- The inner word loop of the hybrid BFS for one dequeued state `curr`:
for each alphabet symbol with a transition from `curr`, merge the
non-excluded non-deterministic image, track merge counters, exclude states
that reached the limit, and maintain the working queue. -/
def hybridWords (limit : Nat) (visited : Finset String) (curr : String) :
    List Word → NFA → List String → List (String × Nat) → Finset String →
    Except String (NFA × List String × List (String × Nat) × Finset String)
  | [], m, ws, counts, excl => .ok (m, ws, counts, excl)
  | w :: rest, m, ws, counts, excl =>
      match lookupT m.transitions (curr, w) with
      | none => hybridWords limit visited curr rest m ws counts excl
      | some dst_states =>
          if 1 < (dst_states \ excl).card then do
            let non_det := dst_states \ excl
            let (s_m, m') ← m.merge_states non_det
            let max_merged ← computeMaxCount counts (natsortedF non_det) 0
            let counts' := countSet (countRemoveAll counts (natsortedF non_det))
              s_m max_merged
            let ws' := ws.filter (fun s => s ∉ non_det)
            let excl' := if limit ≤ max_merged then insert s_m excl else excl
            let enqueue := (natsortedF ((dst_states ∪ {s_m}) \ non_det)).filter
              (fun s => ¬ (s ∈ visited ∨ s ∈ ws'))
            hybridWords limit visited curr rest m' (ws' ++ enqueue) counts' excl'
          else
            let enqueue := (natsortedF dst_states).filter
              (fun s => ¬ (s ∈ visited ∨ s ∈ ws))
            hybridWords limit visited curr rest m (ws ++ enqueue) counts excl

/-- The outer BFS loop of `hybrid_determinize` (fuel for the unbounded
`while working_set`). -/
def hybridLoop (words : List Word) (limit : Nat) :
    Nat → NFA → List String → Finset String → List (String × Nat) →
    Finset String → Except String NFA
  | 0, _, _, _, _, _ => .error "fuel exhausted in the hybrid BFS"
  | _ + 1, m, [], _, _, _ => .ok m
  | f + 1, m, curr :: ws, visited, counts, excl => do
      let visited' := insert curr visited
      let (m', ws', counts', excl') ←
        hybridWords limit visited' curr words m ws counts excl
      hybridLoop words limit f m' ws' visited' counts' excl'

/-! ## Standard determinization

The subset construction itself lives in the external `PySimpleAutomata`
dependency (`nfa_determinization`), wrapped by `standard_determinize` in a
wall-clock timeout and followed by `shorten_states(consider_set_names=True)`.
-/

/-- Image of a state subset under one symbol (classical subset
construction). -/
def subsetImage (ts : TransList) (s : Finset String) (w : Word) :
    Finset String :=
  s.biUnion (fun q =>
    match lookupT ts (q, w) with
    | some d => d
    | none => ∅)

/-- BFS of the subset construction over reachable nonempty subsets; fuel
exhaustion models the `T_std` wall-clock timeout of
`standard_determinize`. -/
def stdGo (m : NFA) : Nat → List (Finset String) → List (Finset String) →
    List ((Finset String × Word) × Finset String) →
    Except String (List (Finset String) × List ((Finset String × Word) × Finset String))
  | 0, _, _, _ => .error "timeout in standard determinization"
  | _ + 1, [], visited, acc => .ok (visited, acc)
  | f + 1, s :: queue, visited, acc =>
      if s ∈ visited then stdGo m f queue visited acc
      else
        let outs := (transWords m.transitions).filterMap (fun w =>
          let img := subsetImage m.transitions s w
          if img = ∅ then none else some ((s, w), img))
        let targets := outs.map (fun o => o.2)
        let queue' := queue ++ targets.filter
          (fun t => ¬ (t ∈ visited ∨ t ∈ s :: queue))
        stdGo m f queue' (visited ++ [s]) (acc ++ outs)

/-- The single-quote character (written by code point to keep the file
free of quote-escape sequences). -/
def quoteChar : Char := Char.ofNat 39

/-- Python `str` of a list of strings, element by element. -/
def pyListReprData : List String → List Char
  | [] => []
  | [x] => quoteChar :: x.data ++ [quoteChar]
  | x :: y :: r =>
      quoteChar :: x.data ++ quoteChar :: ',' :: ' ' :: pyListReprData (y :: r)

/-- Python `str` of a list of strings (`"['s0', 's1']"`), the textual shape
`shorten_states(consider_set_names=True)` natural-sorts. -/
def pyListRepr (l : List String) : String :=
  String.mk ('[' :: pyListReprData l ++ [']'])

/-- Order on state subsets via the natural-sort key of the Python textual
name of the naturally sorted member list, as
`shorten_states(consider_set_names=True)` orders states. -/
def subsetLe (a b : Finset String) : Prop :=
  natLe (pyListRepr (natsortedF a)) (pyListRepr (natsortedF b))

instance : DecidableRel subsetLe := fun _ _ =>
  inferInstanceAs (Decidable (natLe _ _))

/-- First index of an element in a list. -/
def idxOfG {α : Type} [DecidableEq α] : List α → α → Option Nat
  | [], _ => none
  | a :: r, s => if a = s then some 0 else (idxOfG r s).map (fun n => n + 1)

/-- Modelled from the spec: `standard_determinize` delegates the subset
construction to the external `PySimpleAutomata.NFA.nfa_determinization`
(not part of this repository) under the `T_std` timeout and then applies
`shorten_states(consider_set_names=True)`.  Per the spec this is the
classical subset construction whose states are the reachable subsets of
`Q`, made canonical by naturally sorting the subsets' textual names and
renumbering them `str(0) … str(n-1)`. -/
def NFA.standard_determinize (m : NFA) : Except String DFA := do
  let fuel := (2 ^ m.states.card + 1) * (m.transitions.length + 2)
  let (subs, strans) ← stdGo m fuel [{m.initial_state}] [] []
  let sorted := List.insertionSort subsetLe subs
  let nm : Finset String → String := fun s =>
    match idxOfG sorted s with
    | some i => natStr i
    | none => joinComma (natsortedF s)
  .ok { component := m.component
        alphabet := m.alphabet
        states := (subs.map nm).toFinset
        initial_state := nm {m.initial_state}
        accepting_states :=
          ((subs.filter (fun s => (s ∩ m.accepting_states).Nonempty)).map nm).toFinset
        transitions := strans.map (fun e => ((nm e.1.1, e.1.2), nm e.2)) }

/-- `NFA.hybrid_determinize`: with limit `0` delegate immediately to the
standard determinization; otherwise run the bounded BFS merging pass from
the initial state and finish with the standard determinization. -/
def NFA.hybrid_determinize (fuel : Nat) (m : NFA) (per_state_merge_limit : Nat) :
    Except String DFA :=
  if per_state_merge_limit = 0 then m.standard_determinize
  else do
    let counts0 := (natsortedF m.states).map (fun s => (s, 0))
    let m1 ← hybridLoop m.sortedWords per_state_merge_limit fuel m
      [m.initial_state] ∅ counts0 ∅
    m1.standard_determinize

/-! ## The pipeline driver (`PRINS.py`)

`PRINS.run` projects the logs, infers one model per component through the
external CompLearner (MINT, an external executable invoked by
`mint_helper`), stitches the component models along each execution, unions
the per-execution models and renames the result.  The inference step is an
external black box, so the pipeline is modelled from the stitching onward,
taking the component models as input. -/

/-- `PRINS.partition_log_by_component`: group maximal runs of entries of
the same component. -/
def partitionGo : List LogEntry → List LogEntry → List (String × List LogEntry)
  | [], _ => []
  | [e], acc => [(e.component, acc ++ [e])]
  | e :: e2 :: rest, acc =>
      if e2.component = e.component then partitionGo (e2 :: rest) (acc ++ [e])
      else (e.component, acc ++ [e]) :: partitionGo (e2 :: rest) []

/-- `PRINS.partition_log_by_component`. -/
def PRINS.partition_log_by_component (l_vector : List LogEntry) :
    List (String × List LogEntry) :=
  partitionGo l_vector []

/-- Dict of component models (insertion-ordered, keyed by component). -/
abbrev ModelMap := List (String × NFA)

/-- Dict lookup on the component-model map. -/
def lookupModel : ModelMap → String → Option NFA
  | [], _ => none
  | (k, v) :: r, s => if k = s then some v else lookupModel r s

/-- Dict lookup on the cursor map (`slice_starting_states`). -/
def lookupCursor : List (String × String) → String → Option String
  | [], _ => none
  | (k, v) :: r, s => if k = s then some v else lookupCursor r s

/-- Dict update on the cursor map. -/
def setCursor : List (String × String) → String → String → List (String × String)
  | [], s, v => [(s, v)]
  | (k, v') :: r, s, v => if k = s then (k, v) :: r else (k, v') :: setCursor r s v

/-- The per-run loop of `PRINS.stitch`: slice the relevant component model
from its cursor, thread the cursor, and append the slice to the
per-execution accumulator.  The Python cursor dict is keyed by the model
object; we key it by the component name, with the model's initial state as
the initial cursor value exactly as `stitch` initialises it. -/
def stitchGo (models : ModelMap) :
    List (String × List LogEntry) → List (String × String) → Option NFA →
    Except String (Option NFA)
  | [], _, acc => .ok acc
  | (comp, seg) :: rest, cursors, acc => do
      match lookupModel models comp with
      | none => .error "KeyError: no model for component"
      | some mo => do
          let cur :=
            match lookupCursor cursors comp with
            | some c => c
            | none => mo.initial_state
          let (_, sliced, newCur) ← mo.slice seg cur
          let cursors' := setCursor cursors comp newCur
          match acc with
          | none => stitchGo models rest cursors' (some sliced)
          | some a => do
              let a' ← a.append sliced
              stitchGo models rest cursors' (some a')

/-- `PRINS.stitch` for one execution: partition the trace by component runs
and fold the slices together; an empty trace yields no model (`None`). -/
def PRINS.stitch (models : ModelMap) (l_vector : List LogEntry) :
    Except String (Option NFA) :=
  stitchGo models (PRINS.partition_log_by_component l_vector) [] none

/-- Stitch every execution in corpus order. -/
def stitchAll (models : ModelMap) :
    List (List LogEntry) → Except String (List (Option NFA))
  | [] => .ok []
  | lv :: rest => do
      let a ← PRINS.stitch models lv
      let r ← stitchAll models rest
      .ok (a :: r)

/-- Collapse the per-execution results; a `None` accumulator (an empty
execution) would crash the union's attribute accesses in Python. -/
def seqModels : List (Option NFA) → Except String (List NFA)
  | [] => .ok []
  | none :: _ => .error "AttributeError: empty execution produced no model"
  | some a :: r => do
      let rest ← seqModels r
      .ok (a :: rest)

/-- The `M_sys` construction of `PRINS.run` (STEP 3 and the final rename):
stitch each execution, union the per-execution models, and rename the
states from `0`.  The component models produced by the external inference
step are taken as input. -/
def PRINS.run_msys (l_vectors : List (List LogEntry)) (models : ModelMap)
    (system : String) : Except String NFA := do
  let stitched ← stitchAll models l_vectors
  let appended ← seqModels stitched
  let msys ← NFA.union_nfa_models appended system
  .ok (msys.rename_states 0)

/-! # Claim theorems

The remainder of the file settles the claims about the code above. -/

/-- Monadic bind on `Except` applied to a success, as a rewriting lemma. -/
@[simp] theorem exbind_ok {e a b : Type} (x : a) (f : a → Except e b) :
    (Except.ok x >>= f) = f x := rfl

/-- Monadic bind on `Except` applied to a failure, as a rewriting lemma. -/
@[simp] theorem exbind_error {e a b : Type} (m : e) (f : a → Except e b) :
    ((Except.error m : Except e a) >>= f) = Except.error m := rfl

/-! ## C8: degenerate cases of guard evaluation -/

/-- C8: for every values list, `evaluate` returns true when the guard is
absent; and for every non-absent guard, `evaluate` returns false when the
values parse to an empty list. -/
theorem C8_evaluate_degenerate :
    (∀ values : List String, evaluate none values = .ok true) ∧
    (∀ g : Guard, evaluate (some g) [] = .ok false) :=
  ⟨fun _ => rfl, fun _ => rfl⟩

/-! ## C7: rejection of a single-entry trace with no matching guarded
transition

The claim overlooks the `ignore_guard=True` fallback of
`dfa_check_acceptance`: when transitions with the entry's tid exist but all
their guards evaluate to false, the fallback takes the first tid-matching
transition anyway, so the trace is accepted whenever that destination is
accepting. -/

/-- Scanning the transition dict finds nothing when no entry matches the
source state and tid (guards are never evaluated). -/
theorem dfaScan_none_of_no_tid (ts : List ((String × Word) × String))
    (q : String) (e : LogEntry) (ig : Bool)
    (h : ∀ p ∈ ts, p.1.1 = q → p.1.2.1 ≠ e.tid) :
    dfaScan ts q e ig = .ok none := by
  induction ts with
  | nil => rfl
  | cons p r ih =>
    obtain ⟨⟨src, tid, guard⟩, dst⟩ := p
    have hne : ¬ (src = q ∧ e.tid = tid) := by
      rintro ⟨h1, h2⟩
      exact h ((src, tid, guard), dst) (by simp) h1 h2.symm
    simp only [dfaScan, if_neg hne]
    exact ih (fun p hp => h p (by simp [hp]))

/-- Scanning without `ignore_guard` finds nothing when every entry matching
the source state and tid carries a guard that evaluates to false. -/
theorem dfaScan_none_of_false_guards (ts : List ((String × Word) × String))
    (q : String) (e : LogEntry)
    (h : ∀ p ∈ ts, p.1.1 = q → p.1.2.1 = e.tid →
        p.1.2.2 ≠ none ∧ evaluate p.1.2.2 e.values = .ok false) :
    dfaScan ts q e false = .ok none := by
  induction ts with
  | nil => rfl
  | cons p r ih =>
    obtain ⟨⟨src, tid, guard⟩, dst⟩ := p
    have ih' := ih (fun p hp => h p (by simp [hp]))
    by_cases hm : src = q ∧ e.tid = tid
    · have := h ((src, tid, guard), dst) (by simp) hm.1 hm.2.symm
      match guard, this with
      | none, ⟨hg, _⟩ => exact absurd rfl hg
      | some g, ⟨_, hev⟩ =>
          simp only [dfaScan, if_pos hm]
          rw [show (evaluate (some g) e.values) = .ok false from hev]
          simpa using ih'
    · simp only [dfaScan, if_neg hm]
      exact ih'

/-- Scanning with `ignore_guard` succeeds as soon as some entry matches the
source state and tid. -/
theorem dfaScan_ignore_some (ts : List ((String × Word) × String))
    (q : String) (e : LogEntry)
    (h : ∃ p ∈ ts, p.1.1 = q ∧ p.1.2.1 = e.tid) :
    ∃ dst, dfaScan ts q e true = .ok (some dst) := by
  induction ts with
  | nil => simp at h
  | cons p r ih =>
    obtain ⟨⟨src, tid, guard⟩, dst⟩ := p
    by_cases hm : src = q ∧ e.tid = tid
    · refine ⟨dst, ?_⟩
      cases guard <;> simp [dfaScan, if_pos hm]
    · obtain ⟨p', hp', h1, h2⟩ := h
      rcases List.mem_cons.mp hp' with rfl | hp'
      · exact absurd ⟨h1, h2.symm⟩ hm
      · obtain ⟨d, hd⟩ := ih ⟨p', hp', h1, h2⟩
        exact ⟨d, by simpa [dfaScan, if_neg hm] using hd⟩

/-- C7 (corrected): a single-entry trace is rejected when no transition
from the initial state carries the entry's tid; but when tid-matching
transitions exist and every one of their guards evaluates to false, the
`ignore_guard` fallback fires and acceptance equals whether the first
tid-matching transition's destination is accepting. -/
theorem C7_single_entry_no_match :
    (∀ (d : DFA) (e : LogEntry),
      (∀ p ∈ d.transitions, p.1.1 = d.initial_state → p.1.2.1 ≠ e.tid) →
      d.dfa_check_acceptance [e] = .ok false) ∧
    (∀ (d : DFA) (e : LogEntry),
      (∃ p ∈ d.transitions, p.1.1 = d.initial_state ∧ p.1.2.1 = e.tid) →
      (∀ p ∈ d.transitions, p.1.1 = d.initial_state → p.1.2.1 = e.tid →
          p.1.2.2 ≠ none ∧ evaluate p.1.2.2 e.values = .ok false) →
      ∃ dst, d.make_guarded_transition d.initial_state e true = .ok (some dst) ∧
        d.dfa_check_acceptance [e] =
          .ok (if dst ∈ d.accepting_states then true else false)) := by
  constructor
  · intro d e h
    have h1 := dfaScan_none_of_no_tid d.transitions d.initial_state e false h
    have h2 := dfaScan_none_of_no_tid d.transitions d.initial_state e true h
    simp only [DFA.dfa_check_acceptance, DFA.checkLoopD,
      DFA.make_guarded_transition, h1, h2]
    rfl
  · intro d e hex hall
    have h1 := dfaScan_none_of_false_guards d.transitions d.initial_state e hall
    obtain ⟨dst, hdst⟩ := dfaScan_ignore_some d.transitions d.initial_state e
      (by obtain ⟨p, hp, hq, ht⟩ := hex; exact ⟨p, hp, hq, ht⟩)
    refine ⟨dst, hdst, ?_⟩
    simp only [DFA.dfa_check_acceptance, DFA.checkLoopD,
      DFA.make_guarded_transition, h1, hdst]
    by_cases hm : dst ∈ d.accepting_states <;> simp [hm, DFA.checkLoopD]

/-- The guard `var0 == "1"` used in concrete counterexamples. -/
def cexGuard : Guard := .cmp .eq (.var 0) (.lit "1")

/-- A DFA whose only transition from the initial state carries tid `t`
guarded by `var0 == "1"`, into an accepting state. -/
def c7dfa : DFA :=
  { component := "d"
    alphabet := {("t", some cexGuard)}
    states := {"q0", "qf"}
    initial_state := "q0"
    accepting_states := {"qf"}
    transitions := [(("q0", ("t", some cexGuard)), "qf")] }

/-- The log entry `t` with values `["2"]`, failing the guard. -/
def c7entry : LogEntry := { component := "d", tid := "t", values := ["2"] }

/-- C7 (counterexample to the claim as stated): every transition from the
initial state with the entry's tid has a guard evaluating to false, yet
`dfa_check_acceptance` accepts the single-entry trace through the
`ignore_guard` fallback. -/
theorem C7_counterexample :
    (∀ p ∈ c7dfa.transitions, p.1.1 = c7dfa.initial_state →
        p.1.2.1 = c7entry.tid →
        p.1.2.2 ≠ none ∧ evaluate p.1.2.2 c7entry.values = .ok false) ∧
    c7dfa.dfa_check_acceptance [c7entry] = .ok true := by
  constructor
  · decide
  · decide

/-- A DFA with no transition on tid `u` from the initial state. -/
def c7dfa2 : DFA :=
  { component := "d"
    alphabet := {("t", none)}
    states := {"q0", "qf"}
    initial_state := "q0"
    accepting_states := {"qf"}
    transitions := [(("q0", ("t", none)), "qf")] }

/-- The log entry `u`, matched by no transition. -/
def c7entry2 : LogEntry := { component := "d", tid := "u", values := [] }

/-- C7 witness: the corrected theorem applied at concrete inputs. -/
theorem C7_single_entry_no_match_witness :
    c7dfa2.dfa_check_acceptance [c7entry2] = .ok false ∧
    ∃ dst, c7dfa.make_guarded_transition c7dfa.initial_state c7entry true =
        .ok (some dst) ∧
      c7dfa.dfa_check_acceptance [c7entry] =
        .ok (if dst ∈ c7dfa.accepting_states then true else false) :=
  ⟨C7_single_entry_no_match.1 c7dfa2 c7entry2 (by decide),
   C7_single_entry_no_match.2 c7dfa c7entry (by decide) (by decide)⟩

/-! ## C3: slicing has no side effect on the sliced model and is
deterministic

`NFA.slice` never assigns to `self` (the source comment `ASSERT: This
function should not change anything in self` holds by inspection of the
statements), so the embedding threads the receiver through unchanged; the
theorem records this frame property together with determinism of the
sliced result for equal trace and cursor values. -/

/-- C3: slicing leaves the model's alphabet, states, initial state,
accepting states and transitions unchanged, and two slice calls with equal
trace and cursor values return equal sliced automata (and equal updated
cursors). -/
theorem C3_slice_frame_and_deterministic :
    (∀ (m : NFA) (τ : List LogEntry) (c : String) (r : NFA × NFA × String),
      m.slice τ c = .ok r →
      r.1.alphabet = m.alphabet ∧ r.1.states = m.states ∧
      r.1.initial_state = m.initial_state ∧
      r.1.accepting_states = m.accepting_states ∧
      r.1.transitions = m.transitions) ∧
    (∀ (m : NFA) (τ : List LogEntry) (c : String) (r r' : NFA × NFA × String),
      m.slice τ c = .ok r → m.slice τ c = .ok r' →
      r.2.1 = r'.2.1 ∧ r.2.2 = r'.2.2) := by
  constructor
  · intro m τ c r h
    unfold NFA.slice at h
    cases hnd : m.find_non_deterministic_states [] 0 with
    | error msg => rw [hnd] at h; simp at h
    | ok v =>
        rw [hnd] at h
        cases v with
        | some s => simp at h
        | none =>
            simp only [exbind_ok, Option.isSome_none, Bool.false_eq_true,
              if_false] at h
            cases hgo : sliceGo m τ c ∅ {c} [] with
            | error msg => rw [hgo] at h; simp at h
            | ok q =>
                rw [hgo] at h
                obtain ⟨alph, sts, tr, fin⟩ := q
                simp only [exbind_ok] at h
                cases h
                exact ⟨rfl, rfl, rfl, rfl, rfl⟩
  · intro m τ c r r' h h'
    rw [h] at h'
    cases h'
    exact ⟨rfl, rfl⟩

/-- The component model used in concrete slice and stitch witnesses:
`0 -a[var0=="1"]-> 1 -b-> 2`. -/
def cexModel : NFA :=
  { component := "C"
    alphabet := {("a", some cexGuard), ("b", none)}
    states := {"0", "1", "2"}
    initial_state := "0"
    accepting_states := {"2"}
    transitions := [(("0", ("a", some cexGuard)), {"1"}),
                    (("1", ("b", none)), {"2"})] }

/-- Entry `a` with values satisfying the guard. -/
def entryA1 : LogEntry := { component := "C", tid := "a", values := ["1"] }

/-- Entry `a` with values failing the guard. -/
def entryA2 : LogEntry := { component := "C", tid := "a", values := ["2"] }

/-- Entry `b` with no values. -/
def entryB : LogEntry := { component := "C", tid := "b", values := [] }

/-- The expected slice of `cexModel` along `[a(1), b]` from cursor `0`. -/
def cexSliceResult : NFA × NFA × String :=
  (cexModel,
   { component := "C"
     alphabet := {("a", some cexGuard), ("b", none)}
     states := {"0", "1", "2"}
     initial_state := "0"
     accepting_states := {"2"}
     transitions := [(("0", ("a", some cexGuard)), {"1"}),
                     (("1", ("b", none)), {"2"})] },
   "2")

/-- C3 witness: the frame and determinism facts at a concrete slice run. -/
theorem C3_slice_frame_and_deterministic_witness :
    ((cexSliceResult.1.alphabet = cexModel.alphabet ∧
      cexSliceResult.1.states = cexModel.states ∧
      cexSliceResult.1.initial_state = cexModel.initial_state ∧
      cexSliceResult.1.accepting_states = cexModel.accepting_states ∧
      cexSliceResult.1.transitions = cexModel.transitions)) ∧
    (cexSliceResult.2.1 = cexSliceResult.2.1 ∧
     cexSliceResult.2.2 = cexSliceResult.2.2) :=
  ⟨C3_slice_frame_and_deterministic.1 cexModel [entryA1, entryB] "0"
      cexSliceResult (by decide),
   C3_slice_frame_and_deterministic.2 cexModel [entryA1, entryB] "0"
      cexSliceResult cexSliceResult (by decide) (by decide)⟩

/-! ## C9: `heuristic_determinize` destroys the receiver's transition
images -/

/-- When the non-determinism scan reports nothing, every transition image
is a singleton (an image larger than one would be reported, an empty one is
the fatal `exit`). -/
theorem card_one_of_findNonDetAux_none (ts : TransList)
    (h : findNonDetAux ts ∅ = .ok none) :
    ∀ p ∈ ts, (p.2 : Finset String).card = 1 := by
  induction ts with
  | nil => simp
  | cons p r ih =>
    obtain ⟨k, d⟩ := p
    rw [findNonDetAux] at h
    by_cases h1 : 1 < (d \ ∅).card
    · rw [if_pos h1] at h
      exact absurd h (by simp)
    · rw [if_neg h1] at h
      by_cases h0 : d.card = 0
      · rw [if_pos h0] at h
        exact absurd h (by simp)
      · rw [if_neg h0] at h
        intro q hq
        rcases List.mem_cons.mp hq with rfl | hq
        · rw [Finset.sdiff_empty] at h1
          show d.card = 1
          omega
        · exact ih h q hq

/-- The terminal automaton of the heuristic merging loop passes the
non-determinism scan. -/
theorem heuristicGo_terminal (fuel : Nat) (m m1 : NFA)
    (h : heuristicGo fuel m = .ok m1) :
    m1.find_non_deterministic_states [] 0 = .ok none := by
  induction fuel generalizing m with
  | zero => simp [heuristicGo] at h
  | succ f ih =>
    unfold heuristicGo at h
    cases hnd : m.find_non_deterministic_states [] 0 with
    | error msg => rw [hnd] at h; simp at h
    | ok v =>
        rw [hnd] at h
        cases v with
        | none => simp only [exbind_ok] at h; cases h; exact hnd
        | some s =>
            simp only [exbind_ok] at h
            cases hm : m.merge_states s with
            | error msg => rw [hm] at h; simp at h
            | ok p =>
                rw [hm] at h
                simp only [exbind_ok] at h
                exact ih p.2 h

/-- Popping the loop's singleton images empties each of the receiver's
transition images. -/
theorem popAll_empties (ts : TransList)
    (hcard : ∀ p ∈ ts, (p.2 : Finset String).card = 1)
    (pairs : List ((String × Word) × String)) (selfs : TransList)
    (h : popAll ts = .ok (pairs, selfs)) :
    ∀ p ∈ selfs, p.2 = (∅ : Finset String) := by
  induction ts generalizing pairs selfs with
  | nil => cases h; simp
  | cons p r ih =>
    obtain ⟨k, d⟩ := p
    unfold popAll at h
    cases hp : popEntry d with
    | error msg => rw [hp] at h; simp at h
    | ok xd =>
        rw [hp] at h
        obtain ⟨x, d'⟩ := xd
        simp only [exbind_ok] at h
        cases hrest : popAll r with
        | error msg => rw [hrest] at h; simp at h
        | ok q =>
            rw [hrest] at h
            obtain ⟨dfas, selfsr⟩ := q
            simp only [exbind_ok] at h
            cases h
            intro pr hpr
            rcases List.mem_cons.mp hpr with rfl | hpr
            · -- the popped element is a member, and the image is a singleton
              have hx : x ∈ d ∧ d' = d.erase x := by
                unfold popEntry at hp
                cases hsort : natsortedF d with
                | nil =>
                    rw [hsort] at hp
                    exact absurd hp (by simp)
                | cons y ys =>
                    rw [hsort] at hp
                    simp only [Except.ok.injEq, Prod.mk.injEq] at hp
                    obtain ⟨hyx, hd'⟩ := hp
                    subst hyx
                    refine ⟨?_, hd'.symm⟩
                    exact mem_natsortedF.mp (by rw [hsort]; simp)
              have hd1 : d.card = 1 := by simpa using hcard (k, d) (by simp)
              obtain ⟨z, hz⟩ := Finset.card_eq_one.mp hd1
              have hxz : x = z := by
                have := hx.1
                rw [hz] at this
                simpa using this
              subst hxz
              simp [hx.2, hz]
            · exact ih (fun q hq => hcard q (by simp [hq])) dfas selfsr hrest pr hpr

/-- C9: whenever `heuristic_determinize` succeeds, every transition image
of the receiver NFA it leaves behind is the empty set (each singleton
destination set was emptied by `set.pop` while building the DFA), so the
receiver violates the no-empty-image invariant and must not be reused. -/
theorem C9_heuristic_empties_receiver (fuel : Nat) (m : NFA) (d : DFA)
    (post : NFA) (h : NFA.heuristic_determinize fuel m = .ok (d, post)) :
    ∀ p ∈ post.transitions, p.2 = (∅ : Finset String) := by
  unfold NFA.heuristic_determinize at h
  cases hgo : heuristicGo fuel m with
  | error msg => rw [hgo] at h; simp at h
  | ok m1 =>
      rw [hgo] at h
      simp only [exbind_ok] at h
      cases hpop : popAll m1.transitions with
      | error msg => rw [hpop] at h; simp at h
      | ok q =>
          rw [hpop] at h
          obtain ⟨pairs, selfs⟩ := q
          simp only [exbind_ok] at h
          cases h
          have hterm := heuristicGo_terminal fuel m m1 hgo
          have hcard := card_one_of_findNonDetAux_none m1.transitions hterm
          exact popAll_empties m1.transitions hcard pairs selfs hpop

/-- The spec's S4 example automaton, used as the C9 witness input. -/
def c9nfa : NFA :=
  { component := "x"
    alphabet := {("a", none), ("b", none), ("c", none), ("d", none)}
    states := {"s0", "s1", "s2", "s3"}
    initial_state := "s0"
    accepting_states := {"s3"}
    transitions := [(("s0", ("a", none)), {"s1", "s2"}),
                    (("s1", ("b", none)), {"s3"}),
                    (("s2", ("b", none)), {"s2"}),
                    (("s2", ("c", none)), {"s3"})] }

/-- The DFA `heuristic_determinize` produces for `c9nfa`. -/
def c9dfa : DFA :=
  { component := "x"
    alphabet := {("a", none), ("b", none), ("c", none), ("d", none)}
    states := {"0", "1"}
    initial_state := "0"
    accepting_states := {"1"}
    transitions := [(("0", ("a", none)), "1"), (("1", ("b", none)), "1"),
                    (("1", ("c", none)), "1")] }

/-- The receiver state `heuristic_determinize` leaves behind for `c9nfa`:
all transition images emptied. -/
def c9post : NFA :=
  { component := "x"
    alphabet := {("a", none), ("b", none), ("c", none), ("d", none)}
    states := {"s0", "s1,s2,s3"}
    initial_state := "s0"
    accepting_states := {"s1,s2,s3"}
    transitions := [(("s0", ("a", none)), ∅),
                    (("s1,s2,s3", ("b", none)), ∅),
                    (("s1,s2,s3", ("c", none)), ∅)] }

/-- C9 witness: the theorem applied to a concrete successful run and a
concrete entry of the emptied receiver dict. -/
theorem C9_heuristic_empties_receiver_witness :
    NFA.heuristic_determinize 10 c9nfa = .ok (c9dfa, c9post) ∧
    ((("s0", ("a", none)), (∅ : Finset String)) :
      (String × Word) × Finset String).2 = (∅ : Finset String) :=
  ⟨by decide, C9_heuristic_empties_receiver 10 c9nfa c9dfa c9post (by decide)
      (("s0", ("a", none)), (∅ : Finset String)) (by decide)⟩

/-! ## Association-list lemmas shared by the merge, rename and pipeline
proofs -/

/-- Looking up the inserted key finds a superset of the inserted value. -/
theorem lookupT_insertUnionT_self (acc : TransList) (k : String × Word)
    (w : Finset String) :
    ∃ v', lookupT (insertUnionT acc k w) k = some v' ∧ w ⊆ v' := by
  induction acc with
  | nil => exact ⟨w, by simp [insertUnionT, lookupT], le_refl w⟩
  | cons p r ih =>
    obtain ⟨k', v'⟩ := p
    by_cases hk : k' = k
    · exact ⟨v' ∪ w, by simp [insertUnionT, lookupT, hk],
        Finset.subset_union_right⟩
    · obtain ⟨v0, hv0, hw⟩ := ih
      exact ⟨v0, by simp [insertUnionT, lookupT, hk, hv0], hw⟩

/-- Inserting only grows what a lookup finds. -/
theorem lookupT_insertUnionT_mono (acc : TransList) (k : String × Word)
    (w : Finset String) (k₀ : String × Word) (v : Finset String)
    (h : lookupT acc k₀ = some v) :
    ∃ v', lookupT (insertUnionT acc k w) k₀ = some v' ∧ v ⊆ v' := by
  induction acc with
  | nil => simp [lookupT] at h
  | cons p r ih =>
    obtain ⟨k', v'⟩ := p
    by_cases hk : k' = k
    · subst hk
      by_cases hk0 : k' = k₀
      · subst hk0
        rw [lookupT, if_pos rfl] at h
        cases h
        exact ⟨v ∪ w, by simp [insertUnionT, lookupT], Finset.subset_union_left⟩
      · rw [lookupT, if_neg hk0] at h
        exact ⟨v, by simp [insertUnionT, lookupT, hk0, h], le_refl v⟩
    · by_cases hk0 : k' = k₀
      · subst hk0
        rw [lookupT, if_pos rfl] at h
        cases h
        exact ⟨v, by simp [insertUnionT, lookupT, hk], le_refl v⟩
      · rw [lookupT, if_neg hk0] at h
        obtain ⟨v0, hv0, hw⟩ := ih h
        exact ⟨v0, by simp [insertUnionT, lookupT, hk, hk0, hv0], hw⟩

/-- The state substitution a merge performs. -/
def mergeSigma (ss : Finset String) (s_m : String) : String → String :=
  fun s => if s ∈ ss then s_m else s

/-- The destination rewrite of `merge_states` is exactly the image of the
merge substitution. -/
theorem mergeRewrite_eq_image (ss : Finset String) (s_m : String)
    (d : Finset String) :
    (if (d ∩ ss).Nonempty then (d \ ss) ∪ {s_m} else d) =
      d.image (mergeSigma ss s_m) := by
  by_cases hne : (d ∩ ss).Nonempty
  · rw [if_pos hne]
    ext x
    simp only [Finset.mem_union, Finset.mem_sdiff, Finset.mem_singleton,
      Finset.mem_image, mergeSigma]
    constructor
    · rintro (⟨hx, hns⟩ | rfl)
      · exact ⟨x, hx, by simp [hns]⟩
      · obtain ⟨y, hy⟩ := hne
        simp only [Finset.mem_inter] at hy
        exact ⟨y, hy.1, by simp [hy.2]⟩
    · rintro ⟨y, hy, rfl⟩
      by_cases hys : y ∈ ss
      · simp [hys]
      · simp [hys, hy]
  · rw [if_neg hne]
    ext x
    simp only [Finset.mem_image, mergeSigma]
    constructor
    · intro hx
      refine ⟨x, hx, ?_⟩
      have : x ∉ ss := fun hc => hne ⟨x, Finset.mem_inter.mpr ⟨hx, hc⟩⟩
      simp [this]
    · rintro ⟨y, hy, rfl⟩
      have : y ∉ ss := fun hc => hne ⟨y, Finset.mem_inter.mpr ⟨hy, hc⟩⟩
      simpa [this] using hy

/-- The merge-redirect fold only grows what a lookup finds. -/
theorem lookupT_mergeRedirect_mono (ss : Finset String) (s_m : String) :
    ∀ (ts acc : TransList) (k₀ : String × Word) (v : Finset String),
    lookupT acc k₀ = some v →
    ∃ v', lookupT (mergeRedirect ss s_m ts acc) k₀ = some v' ∧ v ⊆ v' := by
  intro ts
  induction ts with
  | nil => exact fun acc k₀ v h => ⟨v, h, le_refl v⟩
  | cons p r ih =>
    intro acc k₀ v h
    obtain ⟨⟨src, w⟩, dst⟩ := p
    obtain ⟨v1, hv1, h1⟩ := lookupT_insertUnionT_mono acc
      ((if src ∈ ss then s_m else src), w)
      (if (dst ∩ ss).Nonempty then (dst \ ss) ∪ {s_m} else dst) k₀ v h
    obtain ⟨v2, hv2, h2⟩ := ih _ k₀ v1 hv1
    exact ⟨v2, hv2, h1.trans h2⟩

/-- Every entry of the input dict is represented in the merge-redirect
result: the substituted key maps to a superset of the substituted image. -/
theorem lookupT_mergeRedirect (ss : Finset String) (s_m : String) :
    ∀ (ts acc : TransList), ∀ p ∈ ts,
    ∃ d', lookupT (mergeRedirect ss s_m ts acc)
        (mergeSigma ss s_m p.1.1, p.1.2) = some d' ∧
      p.2.image (mergeSigma ss s_m) ⊆ d' := by
  intro ts
  induction ts with
  | nil => simp
  | cons q r ih =>
    intro acc p hp
    obtain ⟨⟨src, w⟩, dst⟩ := q
    rcases List.mem_cons.mp hp with rfl | hp
    · obtain ⟨v1, hv1, h1⟩ := lookupT_insertUnionT_self acc
        ((if src ∈ ss then s_m else src), w)
        (if (dst ∩ ss).Nonempty then (dst \ ss) ∪ {s_m} else dst)
      obtain ⟨v2, hv2, h2⟩ := lookupT_mergeRedirect_mono ss s_m r _ _ _ hv1
      refine ⟨v2, ?_, ?_⟩
      · simpa [mergeRedirect, mergeSigma] using hv2
      · rw [← mergeRewrite_eq_image]
        exact h1.trans h2
    · exact ih _ p hp

/-- Successful merges happen exactly under the two assertions, and return
the canonical name and the rewritten automaton. -/
theorem merge_states_ok_iff (m : NFA) (ss : Finset String)
    (p : String × NFA) :
    m.merge_states ss = .ok p ↔
      (1 < ss.card ∧ ss ⊆ m.states ∧
       p = (joinComma (natsortedF ss),
        { component := m.component
          alphabet := m.alphabet
          states := (m.states \ ss) ∪ {joinComma (natsortedF ss)}
          initial_state :=
            if m.initial_state ∈ ss then joinComma (natsortedF ss)
            else m.initial_state
          accepting_states :=
            (m.accepting_states \ ss) ∪
              (if (m.accepting_states ∩ ss).Nonempty
               then {joinComma (natsortedF ss)} else ∅)
          transitions :=
            mergeRedirect ss (joinComma (natsortedF ss)) m.transitions [] })) := by
  unfold NFA.merge_states
  by_cases h1 : ss.card ≤ 1
  · rw [if_pos h1]
    simp only [iff_iff_implies_and_implies]
    constructor
    · intro h; cases h
    · rintro ⟨hc, _⟩; omega
  · rw [if_neg h1]
    by_cases h2 : ¬ ss ⊆ m.states
    · rw [if_pos h2]
      simp only [iff_iff_implies_and_implies]
      constructor
      · intro h; cases h
      · rintro ⟨_, hs, _⟩; exact absurd hs h2
    · rw [if_neg h2]
      push_neg at h2
      constructor
      · intro h
        cases h
        exact ⟨by omega, h2, rfl⟩
      · rintro ⟨_, _, rfl⟩
        rfl

/-! ## C4: postcondition of `merge_states`

The claim fails when the comma-joined identifier is already a state outside
`S`: then the state count drops by `|S|`, not `|S| − 1`.  With the
additional hypothesis that the merged identifier is fresh, the postcondition
holds. -/

/-- An automaton that already contains the state `1,2`: merging `{1, 2}`
collapses onto it. -/
def c4nfa : NFA :=
  { component := "c4"
    alphabet := {("a", none)}
    states := {"1", "2", "1,2"}
    initial_state := "1"
    accepting_states := {"2"}
    transitions := [(("1", ("a", none)), {"2"})] }

/-- C4 (counterexample to the claim as stated): merging `{1, 2}` in an
automaton whose states are `{1, 2, "1,2"}` leaves one state, not the two
the claim predicts. -/
theorem C4_counterexample :
    ∃ p, c4nfa.merge_states {"1", "2"} = .ok p ∧
      p.2.states.card ≠ c4nfa.states.card - (({"1", "2"} : Finset String).card - 1) := by
  refine ⟨(joinComma (natsortedF {"1", "2"}),
    { component := "c4"
      alphabet := {("a", none)}
      states := {"1,2"}
      initial_state := "1,2"
      accepting_states := {"1,2"}
      transitions := [(("1,2", ("a", none)), {"1,2"})] }), ?_, ?_⟩
  · decide
  · decide

/-- C4 (corrected): when `|S| ≥ 2`, `S ⊆ Q`, and the comma-joined
identifier is not already a state, a successful `merge_states(S)` decreases
`|Q|` by exactly `|S| − 1`, names the merged state by the comma-join of the
naturally sorted members, and redirects every transition so that the
substituted key maps to a superset of the substituted destination image. -/
theorem C4_merge_states_postcondition (m : NFA) (ss : Finset String)
    (p : String × NFA) (h : m.merge_states ss = .ok p)
    (hfresh : joinComma (natsortedF ss) ∉ m.states) :
    p.2.states.card + ss.card = m.states.card + 1 ∧
    p.1 = joinComma (natsortedF ss) ∧
    (∀ e ∈ m.transitions,
      ∃ d', lookupT p.2.transitions (mergeSigma ss p.1 e.1.1, e.1.2) = some d' ∧
        e.2.image (mergeSigma ss p.1) ⊆ d') := by
  obtain ⟨hcard, hsub, rfl⟩ := (merge_states_ok_iff m ss p).mp h
  refine ⟨?_, rfl, ?_⟩
  · have hdisj : joinComma (natsortedF ss) ∉ m.states \ ss :=
      fun hc => hfresh (Finset.mem_sdiff.mp hc).1
    have hcup : ((m.states \ ss) ∪ {joinComma (natsortedF ss)}).card
        = (m.states \ ss).card + 1 := by
      rw [Finset.union_comm, ← Finset.insert_eq,
        Finset.card_insert_of_not_mem hdisj]
    have hsd : (m.states \ ss).card = m.states.card - ss.card :=
      Finset.card_sdiff hsub
    have hle : ss.card ≤ m.states.card := Finset.card_le_card hsub
    simp only [hcup, hsd]
    omega
  · intro e he
    exact lookupT_mergeRedirect ss (joinComma (natsortedF ss))
      m.transitions [] e he

/-- The merged automaton of the C4/C5 witness input. -/
def c4merged : NFA :=
  { component := "C"
    alphabet := {("a", some cexGuard), ("b", none)}
    states := {"0", "1,2"}
    initial_state := "0"
    accepting_states := {"1,2"}
    transitions := [(("0", ("a", some cexGuard)), {"1,2"}),
                    (("1,2", ("b", none)), {"1,2"})] }

/-- C4 witness: the corrected postcondition applied to a concrete merge. -/
theorem C4_merge_states_postcondition_witness :
    c4merged.states.card + ({"1", "2"} : Finset String).card =
      cexModel.states.card + 1 ∧
    ("1,2" : String) = joinComma (natsortedF {"1", "2"}) ∧
    (∀ e ∈ cexModel.transitions,
      ∃ d', lookupT c4merged.transitions
          (mergeSigma {"1", "2"} "1,2" e.1.1, e.1.2) = some d' ∧
        e.2.image (mergeSigma {"1", "2"} "1,2") ⊆ d') := by
  have := C4_merge_states_postcondition cexModel {"1", "2"} ("1,2", c4merged)
    (by decide) (by decide)
  exact this

/-! ## C5: `merge_states` under repetition and presentation

A second call with the same set always violates the `S ⊆ Q` assertion,
because after the merge no member of `S` remains a state: the comma-joined
identifier is strictly longer than every member.  Commutativity in `S`
holds: the result depends only on the set. -/

/-- Joining at least two strings produces at least `n − 1` separator
characters. -/
theorem joinCommaData_length_sep : ∀ l : List String,
    l.length - 1 ≤ (joinCommaData l).length := by
  intro l
  induction l with
  | nil => simp [joinCommaData]
  | cons a r ih =>
    cases r with
    | nil => simp [joinCommaData]
    | cons b rr =>
        simp only [joinCommaData, List.length_append, List.length_cons]
        simp only [List.length_cons] at ih ⊢
        omega

/-- A member of the joined list is no longer than the join minus the
separators. -/
theorem joinCommaData_length_mem : ∀ (l : List String) (s : String),
    s ∈ l → s.data.length + (l.length - 1) ≤ (joinCommaData l).length := by
  intro l
  induction l with
  | nil => simp
  | cons a r ih =>
    intro s hs
    cases r with
    | nil =>
        rcases List.mem_singleton.mp hs with rfl
        simp [joinCommaData]
    | cons b rr =>
        simp only [joinCommaData, List.length_append, List.length_cons]
        rcases List.mem_cons.mp hs with rfl | hs
        · have := joinCommaData_length_sep (b :: rr)
          simp only [List.length_cons] at this ⊢
          omega
        · have := ih s hs
          simp only [List.length_cons] at this ⊢
          omega

/-- With at least two states merged, no member equals the comma-joined
identifier. -/
theorem mem_ne_joinComma (ss : Finset String) (h2 : 2 ≤ ss.card)
    (s : String) (hs : s ∈ ss) : s ≠ joinComma (natsortedF ss) := by
  intro heq
  have hmem : s ∈ natsortedF ss := mem_natsortedF.mpr hs
  have hlen := joinCommaData_length_mem (natsortedF ss) s hmem
  have hL : (natsortedF ss).length = ss.card := length_natsortedF ss
  have hdata : (joinComma (natsortedF ss)).data = joinCommaData (natsortedF ss) := rfl
  have : s.data.length = (joinCommaData (natsortedF ss)).length := by
    rw [← hdata, ← heq]
  omega

/-- C5 (corrected): `merge_states` is commutative in the presentation of
`S` (it depends only on the set of states), but it is not idempotent: after
a successful merge, a second call with the same set fails the `S ⊆ Q`
precondition assertion, because no member of `S` survives as a state. -/
theorem C5_merge_states_commutative_not_idempotent :
    (∀ (m : NFA) (l1 l2 : List String), l1.toFinset = l2.toFinset →
      m.merge_states l1.toFinset = m.merge_states l2.toFinset) ∧
    (∀ (m : NFA) (ss : Finset String) (p : String × NFA),
      m.merge_states ss = .ok p → ∀ q, p.2.merge_states ss ≠ .ok q) := by
  constructor
  · intro m l1 l2 h
    rw [h]
  · intro m ss p h q hq
    obtain ⟨hcard, hsub, rfl⟩ := (merge_states_ok_iff m ss p).mp h
    obtain ⟨hcard2, hsub2, _⟩ := (merge_states_ok_iff _ ss q).mp hq
    obtain ⟨s, hs⟩ := Finset.card_pos.mp (by omega : 0 < ss.card)
    have hmem := hsub2 hs
    simp only [Finset.mem_union, Finset.mem_sdiff, Finset.mem_singleton] at hmem
    rcases hmem with ⟨_, hns⟩ | heq
    · exact hns hs
    · exact mem_ne_joinComma ss (by omega) s hs heq

/-- C5 (counterexample to idempotence as claimed): calling `merge_states`
twice in a row with the same set is not the same as calling it once — the
second call raises the membership assertion. -/
theorem C5_counterexample :
    (cexModel.merge_states {"1", "2"}).bind
        (fun p => p.2.merge_states {"1", "2"}) ≠
      cexModel.merge_states {"1", "2"} := by
  decide

/-- C5 witness: presentation independence and failure of the repeated call
at concrete inputs. -/
theorem C5_merge_states_commutative_not_idempotent_witness :
    cexModel.merge_states (["1", "2"].toFinset) =
      cexModel.merge_states (["2", "1"].toFinset) ∧
    c4merged.merge_states {"1", "2"} ≠ .ok ("1,2", c4merged) :=
  ⟨C5_merge_states_commutative_not_idempotent.1 cexModel ["1", "2"] ["2", "1"]
      (by decide),
   C5_merge_states_commutative_not_idempotent.2 cexModel {"1", "2"}
      ("1,2", c4merged) (by decide) ("1,2", c4merged)⟩

/-! ## C6: `rename_states` preserves structure

The §3 invariants of the data model (initial state and transition endpoints
inside `Q`, accepting states inside `Q`, no empty image, dict keys unique)
are the hypotheses under which the Python dict lookups of `rename_states`
are total; the claim is proved for automata satisfying them. -/

/-- The §3 data-model invariants of an NFA. -/
def NFAinv (m : NFA) : Prop :=
  m.initial_state ∈ m.states ∧
  m.accepting_states ⊆ m.states ∧
  (∀ e ∈ m.transitions, e.1.1 ∈ m.states) ∧
  (∀ e ∈ m.transitions, e.2 ⊆ m.states) ∧
  (∀ e ∈ m.transitions, e.2 ≠ (∅ : Finset String)) ∧
  (m.transitions.map Prod.fst).Nodup

/-- Membership gives an index. -/
theorem idxOf_of_mem : ∀ (l : List String) (s : String), s ∈ l →
    ∃ i, idxOf l s = some i ∧ i < l.length := by
  intro l
  induction l with
  | nil => simp
  | cons a r ih =>
    intro s hs
    by_cases ha : a = s
    · exact ⟨0, by simp [idxOf, ha], by simp⟩
    · rcases List.mem_cons.mp hs with rfl | hs
      · exact absurd rfl ha
      · obtain ⟨i, hi, hlt⟩ := ih s hs
        exact ⟨i + 1, by simp [idxOf, ha, hi], by simp; omega⟩

/-- Two strings with the same first index are equal. -/
theorem idxOf_inj : ∀ (l : List String) (s t : String) (i : Nat),
    idxOf l s = some i → idxOf l t = some i → s = t := by
  intro l
  induction l with
  | nil => simp [idxOf]
  | cons a r ih =>
    intro s t i hs ht
    by_cases has : a = s <;> by_cases hat : a = t
    · rw [← has, ← hat]
    · rw [idxOf, if_pos has] at hs
      rw [idxOf, if_neg hat] at ht
      cases hs
      cases hmt : idxOf r t with
      | none => rw [hmt] at ht; simp at ht
      | some j => rw [hmt] at ht; simp at ht
    · rw [idxOf, if_neg has] at hs
      rw [idxOf, if_pos hat] at ht
      cases ht
      cases hms : idxOf r s with
      | none => rw [hms] at hs; simp at hs
      | some j => rw [hms] at hs; simp at hs
    · rw [idxOf, if_neg has] at hs
      rw [idxOf, if_neg hat] at ht
      cases hms : idxOf r s with
      | none => rw [hms] at hs; simp at hs
      | some j =>
          cases hmt : idxOf r t with
          | none => rw [hmt] at ht; simp at ht
          | some j' =>
              rw [hms] at hs; rw [hmt] at ht
              simp at hs ht
              have : j = j' := by omega
              exact ih s t j hms (by rw [hmt, this])

/-- On a member of `Q`, the rename map produces `str(i + padding)` for the
member's natural-sort index `i`. -/
theorem rename_map_mem (m : NFA) (p : Int) (s : String) (hs : s ∈ m.states) :
    ∃ i : Nat, idxOf (natsortedF m.states) s = some i ∧ i < m.states.card ∧
      m.rename_map p s = intStr ((i : Int) + p) := by
  obtain ⟨i, hi, hlt⟩ := idxOf_of_mem (natsortedF m.states) s
    (mem_natsortedF.mpr hs)
  refine ⟨i, hi, by rwa [length_natsortedF] at hlt, ?_⟩
  unfold NFA.rename_map
  rw [hi]

/-- The rename map is injective on `Q`. -/
theorem rename_map_injOn (m : NFA) (p : Int) :
    Set.InjOn (m.rename_map p) m.states := by
  intro s hs t ht h
  obtain ⟨i, hi, _, hρs⟩ := rename_map_mem m p s hs
  obtain ⟨j, hj, _, hρt⟩ := rename_map_mem m p t ht
  rw [hρs, hρt] at h
  have hij : (i : Int) + p = (j : Int) + p := intStr_inj h
  have : i = j := by omega
  exact idxOf_inj _ s t i hi (by rw [hj, this])

/-- Lookups at other keys are unaffected by an insert. -/
theorem lookupT_insertUnionT_of_ne (acc : TransList) (k : String × Word)
    (w : Finset String) (k₀ : String × Word) (h : k₀ ≠ k) :
    lookupT (insertUnionT acc k w) k₀ = lookupT acc k₀ := by
  induction acc with
  | nil =>
    simp only [insertUnionT, lookupT]
    rw [if_neg (fun hc => h hc.symm)]
  | cons q r ih =>
    obtain ⟨k', v'⟩ := q
    by_cases hk : k' = k
    · subst hk
      rw [insertUnionT, if_pos rfl, lookupT, lookupT]
      by_cases hk0 : k' = k₀
      · exact absurd hk0.symm h
      · simp [hk0]
    · rw [insertUnionT, if_neg hk, lookupT, lookupT]
      by_cases hk0 : k' = k₀
      · simp [hk0]
      · simp [hk0, ih]

/-- Inserting a fresh key appends it with exactly the inserted value. -/
theorem lookupT_insertUnionT_fresh (acc : TransList) (k : String × Word)
    (w : Finset String) (h : k ∉ acc.map Prod.fst) :
    lookupT (insertUnionT acc k w) k = some w := by
  induction acc with
  | nil => simp [insertUnionT, lookupT]
  | cons q r ih =>
    obtain ⟨k', v'⟩ := q
    simp only [List.map_cons, List.mem_cons] at h
    push_neg at h
    rw [insertUnionT, if_neg (fun hc => h.1 hc.symm), lookupT,
      if_neg (fun hc => h.1 hc.symm)]
    exact ih h.2

/-- Key list of an insert: unchanged when present, appended when fresh. -/
theorem insertUnionT_keys (acc : TransList) (k : String × Word)
    (w : Finset String) :
    (insertUnionT acc k w).map Prod.fst =
      (if k ∈ acc.map Prod.fst then acc.map Prod.fst
       else acc.map Prod.fst ++ [k]) := by
  induction acc with
  | nil => simp [insertUnionT]
  | cons q r ih =>
    obtain ⟨k', v'⟩ := q
    by_cases hk : k' = k
    · subst hk
      simp [insertUnionT]
    · rw [insertUnionT, if_neg hk]
      simp only [List.map_cons]
      rw [ih]
      have hkk : ¬ (k = k') := fun hc => hk hc.symm
      by_cases hmem : k ∈ r.map Prod.fst
      · rw [if_pos hmem, if_pos (List.mem_cons.mpr (Or.inr hmem))]
      · rw [if_neg hmem, if_neg (by
          intro hc
          rcases List.mem_cons.mp hc with hc | hc
          · exact hkk hc
          · exact hmem hc)]
        simp

/-- The rename-transition fold leaves untouched keys alone. -/
theorem renameTrans_lookup_of_ne (ρ : String → String) :
    ∀ (ts acc : TransList) (k₀ : String × Word),
    (∀ e ∈ ts, (ρ e.1.1, e.1.2) ≠ k₀) →
    lookupT (renameTrans ρ ts acc) k₀ = lookupT acc k₀ := by
  intro ts
  induction ts with
  | nil => intro acc k₀ _; rfl
  | cons e r ih =>
    intro acc k₀ h
    obtain ⟨⟨src, w⟩, dst⟩ := e
    rw [renameTrans]
    rw [ih _ _ (fun e he => h e (by simp [he]))]
    by_cases hd : dst = ∅
    · rw [if_pos hd]
    · rw [if_neg hd]
      exact lookupT_insertUnionT_of_ne acc _ _ k₀
        (h ((src, w), dst) (by simp)).symm

/-- Mapped keys of the rename fold: every entry of the input shows up with
its renamed key bound to exactly the renamed image (under unique mapped
keys, fresh relative to the accumulator). -/
theorem renameTrans_lookup (ρ : String → String) :
    ∀ (ts acc : TransList),
    (ts.map (fun e => ((ρ e.1.1, e.1.2) : String × Word))).Nodup →
    (∀ e ∈ ts, ((ρ e.1.1, e.1.2) : String × Word) ∉ acc.map Prod.fst) →
    (∀ e ∈ ts, e.2 ≠ (∅ : Finset String)) →
    ∀ e ∈ ts, lookupT (renameTrans ρ ts acc) (ρ e.1.1, e.1.2) =
      some (e.2.image ρ) := by
  intro ts
  induction ts with
  | nil => simp
  | cons q r ih =>
    intro acc hnd hfresh hne e he
    obtain ⟨⟨src, w⟩, dst⟩ := q
    simp only [List.map_cons, List.nodup_cons] at hnd
    have hdne : dst ≠ ∅ := hne ((src, w), dst) (by simp)
    rcases List.mem_cons.mp he with rfl | he
    · rw [renameTrans, if_neg hdne]
      rw [renameTrans_lookup_of_ne ρ r _ _ (fun e' he' hc => hnd.1 (by
        rw [← hc]
        exact List.mem_map.mpr ⟨e', he', rfl⟩))]
      exact lookupT_insertUnionT_fresh acc _ _ (hfresh ((src, w), dst) (by simp))
    · rw [renameTrans, if_neg hdne]
      refine ih _ hnd.2 ?_ (fun e' he' => hne e' (by simp [he'])) e he
      intro e' he'
      rw [insertUnionT_keys, if_neg (hfresh ((src, w), dst) (by simp))]
      simp only [List.mem_append, List.mem_singleton]
      push_neg
      refine ⟨hfresh e' (by simp [he']), ?_⟩
      intro hc
      exact hnd.1 (hc ▸ List.mem_map.mpr ⟨e', he', rfl⟩)

/-- The rename fold produces one entry per nonempty-image input entry. -/
theorem renameTrans_length (ρ : String → String) :
    ∀ (ts acc : TransList),
    (ts.map (fun e => ((ρ e.1.1, e.1.2) : String × Word))).Nodup →
    (∀ e ∈ ts, ((ρ e.1.1, e.1.2) : String × Word) ∉ acc.map Prod.fst) →
    (∀ e ∈ ts, e.2 ≠ (∅ : Finset String)) →
    (renameTrans ρ ts acc).length = acc.length + ts.length := by
  intro ts
  induction ts with
  | nil => intro acc _ _ _; rfl
  | cons q r ih =>
    intro acc hnd hfresh hne
    obtain ⟨⟨src, w⟩, dst⟩ := q
    simp only [List.map_cons, List.nodup_cons] at hnd
    have hdne : dst ≠ ∅ := hne ((src, w), dst) (by simp)
    rw [renameTrans, if_neg hdne]
    have hlen : (insertUnionT acc (ρ src, w) (dst.image ρ)).length
        = acc.length + 1 := by
      have hk := insertUnionT_keys acc (ρ src, w) (dst.image ρ)
      rw [if_neg (hfresh ((src, w), dst) (by simp))] at hk
      have := congrArg List.length hk
      simpa using this
    rw [ih _ hnd.2 ?_ (fun e' he' => hne e' (by simp [he'])), hlen]
    · simp only [List.length_cons]
      omega
    · intro e' he'
      rw [insertUnionT_keys, if_neg (hfresh ((src, w), dst) (by simp))]
      simp only [List.mem_append, List.mem_singleton]
      push_neg
      refine ⟨hfresh e' (by simp [he']), ?_⟩
      intro hc
      exact hnd.1 (hc ▸ List.mem_map.mpr ⟨e', he', rfl⟩)

/-- Under the invariants, the renamed keys of the transition dict are
pairwise distinct. -/
theorem renamed_keys_nodup (m : NFA) (p : Int) (hinv : NFAinv m) :
    (m.transitions.map
      (fun e => ((m.rename_map p e.1.1, e.1.2) : String × Word))).Nodup := by
  obtain ⟨_, _, hsrc, _, _, hnd⟩ := hinv
  have : (m.transitions.map
      (fun e => ((m.rename_map p e.1.1, e.1.2) : String × Word)))
      = (m.transitions.map Prod.fst).map
          (fun k => (m.rename_map p k.1, k.2)) := by
    rw [List.map_map]
    rfl
  rw [this]
  refine List.Nodup.map_on ?_ hnd
  intro x hx y hy hxy
  obtain ⟨ex, hex, hx1⟩ := List.mem_map.mp hx
  obtain ⟨ey, hey, hy1⟩ := List.mem_map.mp hy
  simp only [Prod.mk.injEq] at hxy
  have hx2 : x.1 ∈ m.states := by rw [← hx1]; exact hsrc ex hex
  have hy2 : y.1 ∈ m.states := by rw [← hy1]; exact hsrc ey hey
  have := rename_map_injOn m p hx2 hy2 hxy.1
  exact Prod.ext this hxy.2

/-- C6: `rename_states(p)` preserves the sizes of `Q`, `Σ`, `F` and `δ`,
gives every state a name `str(i + p)` with `i < |Q|`, and renames the
initial state, accepting states and every transition through the single
rename map built from the natural sort order of the old names. -/
theorem C6_rename_states_preserves_structure (m : NFA) (p : Int)
    (hinv : NFAinv m) :
    (m.rename_states p).states.card = m.states.card ∧
    (m.rename_states p).alphabet = m.alphabet ∧
    (m.rename_states p).accepting_states.card = m.accepting_states.card ∧
    (m.rename_states p).transitions.length = m.transitions.length ∧
    (∀ s ∈ (m.rename_states p).states,
      ∃ i : Nat, i < m.states.card ∧ s = intStr ((i : Int) + p)) ∧
    (m.rename_states p).initial_state = m.rename_map p m.initial_state ∧
    (m.rename_states p).accepting_states =
      m.accepting_states.image (m.rename_map p) ∧
    (∀ e ∈ m.transitions,
      lookupT (m.rename_states p).transitions (m.rename_map p e.1.1, e.1.2) =
        some (e.2.image (m.rename_map p))) := by
  obtain ⟨hinit, hacc, hsrc, hdst, hne, hnd⟩ := hinv
  have hkeys := renamed_keys_nodup m p ⟨hinit, hacc, hsrc, hdst, hne, hnd⟩
  refine ⟨?_, rfl, ?_, ?_, ?_, rfl, rfl, ?_⟩
  · exact Finset.card_image_of_injOn (rename_map_injOn m p)
  · exact Finset.card_image_of_injOn
      ((rename_map_injOn m p).mono (fun x hx => hacc hx))
  · have := renameTrans_length (m.rename_map p) m.transitions [] hkeys
      (by simp) hne
    simpa [NFA.rename_states] using this
  · intro s hs
    obtain ⟨t, ht, rfl⟩ := Finset.mem_image.mp hs
    obtain ⟨i, _, hlt, hρ⟩ := rename_map_mem m p t ht
    exact ⟨i, hlt, hρ⟩
  · intro e he
    exact renameTrans_lookup (m.rename_map p) m.transitions [] hkeys
      (by simp) hne e he

/-- C6 witness: the preservation facts at a concrete rename. -/
theorem C6_rename_states_preserves_structure_witness :
    (cexModel.rename_states 5).states.card = cexModel.states.card ∧
    (∀ s ∈ (cexModel.rename_states 5).states,
      ∃ i : Nat, i < cexModel.states.card ∧ s = intStr ((i : Int) + 5)) := by
  have := C6_rename_states_preserves_structure cexModel 5
    (by refine ⟨?_, ?_, ?_, ?_, ?_, ?_⟩ <;> decide)
  exact ⟨this.1, this.2.2.2.2.1⟩

/-! ## C10: `union_nfa_models` needs at least two models

With a single model, the collected set of renamed initial states is a
singleton, so the `|S| > 1` assertion of `merge_states` fires.  With two or
more models, the disjoint renaming puts each model's states in a disjoint
integer band, so the collected initial states are pairwise distinct. -/

/-- Inverting a successful monadic bind on `Except`. -/
theorem bind_ok_inv {e a b : Type} (m : Except e a) (f : a → Except e b)
    (x : b) (h : m >>= f = .ok x) : ∃ y, m = .ok y ∧ f y = .ok x := by
  cases m with
  | error msg => rw [exbind_error] at h; cases h
  | ok y => exact ⟨y, rfl, by rwa [exbind_ok] at h⟩

/-- State names after `rename_states(pad)` are `str(i + pad)` with
`i < |Q|`. -/
theorem rename_states_names (m : NFA) (pad : Int) :
    ∀ s ∈ (m.rename_states pad).states,
    ∃ i : Nat, i < m.states.card ∧ s = intStr ((i : Int) + pad) := by
  intro s hs
  obtain ⟨t, ht, rfl⟩ := Finset.mem_image.mp hs
  obtain ⟨i, _, hlt, hρ⟩ := rename_map_mem m pad t ht
  exact ⟨i, hlt, hρ⟩

/-- The card of the renamed state set equals the original. -/
theorem rename_states_card (m : NFA) (pad : Int) :
    (m.rename_states pad).states.card = m.states.card :=
  Finset.card_image_of_injOn (rename_map_injOn m pad)

/-- Every state of every model in the renamed tail is named by an integer
at least the running padding. -/
theorem unionRename_after : ∀ (models : List NFA) (pad : Int),
    ∀ mo ∈ unionRename models pad, ∀ s ∈ mo.states,
    ∃ k : Int, pad ≤ k ∧ s = intStr k := by
  intro models
  induction models with
  | nil => simp [unionRename]
  | cons m0 rest ih =>
    intro pad mo hmo s hs
    rw [unionRename] at hmo
    rcases List.mem_cons.mp hmo with rfl | hmo
    · obtain ⟨i, _, hname⟩ := rename_states_names m0 pad s hs
      exact ⟨(i : Int) + pad, by omega, hname⟩
    · obtain ⟨k, hk, hname⟩ := ih _ mo hmo s hs
      refine ⟨k, ?_, hname⟩
      have : (0 : Int) ≤ ((m0.rename_states pad).states.card : Int) := by positivity
      omega

/-- The disjointly renamed models have pairwise disjoint state sets. -/
theorem unionRename_pairwise : ∀ (models : List NFA) (pad : Int),
    List.Pairwise (fun a b => ∀ s ∈ a.states, s ∉ b.states)
      (unionRename models pad) := by
  intro models
  induction models with
  | nil => intro pad; simp [unionRename]
  | cons m0 rest ih =>
    intro pad
    rw [unionRename]
    refine List.Pairwise.cons ?_ (ih _)
    intro mo hmo s hs hs'
    obtain ⟨i, hi, hname⟩ := rename_states_names m0 pad s hs
    obtain ⟨k, hk, hname'⟩ := unionRename_after rest _ mo hmo s hs'
    rw [rename_states_card] at hk
    rw [hname] at hname'
    have := intStr_inj hname'
    omega

/-- Renaming preserves the number of models. -/
theorem unionRename_length : ∀ (models : List NFA) (pad : Int),
    (unionRename models pad).length = models.length := by
  intro models
  induction models with
  | nil => intro pad; rfl
  | cons m0 rest ih => intro pad; simp [unionRename, ih]

/-- Each renamed model keeps its initial state inside its state set. -/
theorem unionRename_init_mem : ∀ (models : List NFA) (pad : Int),
    (∀ mo ∈ models, mo.initial_state ∈ mo.states) →
    ∀ mo ∈ unionRename models pad, mo.initial_state ∈ mo.states := by
  intro models
  induction models with
  | nil => simp [unionRename]
  | cons m0 rest ih =>
    intro pad h mo hmo
    rw [unionRename] at hmo
    rcases List.mem_cons.mp hmo with rfl | hmo
    · exact Finset.mem_image_of_mem _ (h m0 (by simp))
    · exact ih _ (fun x hx => h x (by simp [hx])) mo hmo

/-- The renamed initial states are pairwise distinct. -/
theorem unionRename_initials_nodup (models : List NFA) (pad : Int)
    (hinit : ∀ mo ∈ models, mo.initial_state ∈ mo.states) :
    ((unionRename models pad).map (fun mo => mo.initial_state)).Nodup := by
  have hpw := unionRename_pairwise models pad
  have hmem := unionRename_init_mem models pad hinit
  unfold List.Nodup
  rw [List.pairwise_map]
  refine List.Pairwise.imp_of_mem ?_ hpw
  intro a b ha hb hdis heq
  exact hdis a.initial_state (hmem a ha) (heq ▸ hmem b hb)

/-- C10: `union_nfa_models` on a singleton list always raises the
`merge_states` arity assertion instead of returning the model, while for
lists of two or more models (whose initial states lie in their state sets)
the disjoint renaming makes the collected initial-state set as large as the
list. -/
theorem C10_union_arity :
    (∀ (m : NFA) (s : String) (x : NFA), NFA.union_nfa_models [m] s ≠ .ok x) ∧
    (∀ models : List NFA, 2 ≤ models.length →
      (∀ mo ∈ models, mo.initial_state ∈ mo.states) →
      ((unionRename models 0).map (fun mo => mo.initial_state)).toFinset.card
        = models.length) := by
  constructor
  · intro m s x h
    unfold NFA.union_nfa_models at h
    obtain ⟨p, hp, -⟩ := bind_ok_inv _ _ _ h
    obtain ⟨hlt, -, -⟩ := (merge_states_ok_iff _ _ _).mp hp
    have hle : ((unionRename [m] 0).map
        (fun mo => mo.initial_state)).toFinset.card ≤ 1 := by
      refine le_trans (List.toFinset_card_le _) ?_
      simp [unionRename]
    omega
  · intro models hlen hinit
    have hnd := unionRename_initials_nodup models 0 hinit
    rw [List.toFinset_card_of_nodup hnd, List.length_map, unionRename_length]

/-- C10 witness: the singleton union fails and the two-model initial set
has two elements, at concrete inputs. -/
theorem C10_union_arity_witness :
    NFA.union_nfa_models [cexModel] "u" ≠ .ok cexModel ∧
    ((unionRename [cexModel, c9nfa] 0).map
        (fun mo => mo.initial_state)).toFinset.card = 2 :=
  ⟨C10_union_arity.1 cexModel "u" cexModel,
   C10_union_arity.2 [cexModel, c9nfa] (by decide) (by decide)⟩

/-! ## C2: the extremes of hybrid determinization

`hybrid_determinize` with limit `0` literally delegates to the standard
determinization; but for limits above every merge count it does not
coincide with `heuristic_determinize`: after its BFS pass it finishes with
the standard subset construction, which keeps only subsets reachable from
the initial state, while the heuristic builds the DFA from all states.  An
automaton with an unreachable state separates the two. -/

/-- An NFA with an unreachable (accepting) state `1`. -/
def c2nfa : NFA :=
  { component := "c2"
    alphabet := {("a", none)}
    states := {"0", "1"}
    initial_state := "0"
    accepting_states := {"1"}
    transitions := [(("0", ("a", none)), {"0"})] }

/-- What hybrid determinization (limit `5 > |Q|`) yields for `c2nfa`: the
unreachable state is gone. -/
def c2hyb : DFA :=
  { component := "c2"
    alphabet := {("a", none)}
    states := {"0"}
    initial_state := "0"
    accepting_states := ∅
    transitions := [(("0", ("a", none)), "0")] }

/-- What heuristic determinization yields for `c2nfa`: the unreachable
state survives. -/
def c2heu : DFA :=
  { component := "c2"
    alphabet := {("a", none)}
    states := {"0", "1"}
    initial_state := "0"
    accepting_states := {"1"}
    transitions := [(("0", ("a", none)), "0")] }

/-- C2 (counterexample to the `k = ∞` half): with a merge limit larger
than the number of states, hybrid and heuristic determinization disagree on
an automaton with an unreachable state. -/
theorem C2_counterexample :
    NFA.hybrid_determinize 10 c2nfa 5 = .ok c2hyb ∧
    (NFA.heuristic_determinize 10 c2nfa).map (fun p => p.1) = .ok c2heu ∧
    c2hyb ≠ c2heu := by
  refine ⟨by decide, by decide, by decide⟩

/-- C2 (corrected): for every NFA and fuel, `hybrid_determinize` with
`per_state_merge_limit = 0` returns exactly `standard_determinize` (the
`k = ∞` half of the original claim is refuted by `C2_counterexample`). -/
theorem C2_hybrid_zero_is_standard (fuel : Nat) (m : NFA) :
    NFA.hybrid_determinize fuel m 0 = m.standard_determinize := by
  unfold NFA.hybrid_determinize
  rw [if_pos rfl]

/-! ## C1: soundness of the `M_sys` construction

The pipeline accepts corpora whose slicing needed the `ignore_guard`
fallback (it only prints a warning), but `nfa_check_acceptance` has no such
fallback, so the claim fails on such corpora (`C1_counterexample`).  For
guard-free component models — what inference with `ignore_values` produces —
the fallback can never fire and soundness holds: the walk the slices record
survives appending, union and renaming, and the frontier check follows it.
-/

/-- All transition guards absent. -/
def guardFreeT (ts : TransList) : Prop :=
  ∀ e ∈ ts, e.1.2.2 = (none : Option Guard)

instance (ts : TransList) : Decidable (guardFreeT ts) :=
  List.decidableBAll
    (fun e : (String × Word) × Finset String => e.1.2.2 = (none : Option Guard)) ts

/-- A concrete run through a transition dict: at each entry the key
`(state, (tid, None))` is bound and a member of its image is chosen. -/
inductive WalkT (ts : TransList) : String → List LogEntry → String → Prop
  | nil (q : String) : WalkT ts q [] q
  | cons {q f s : String} {e : LogEntry} {τ : List LogEntry} {d : Finset String} :
      lookupT ts (q, (e.tid, none)) = some d → s ∈ d →
      WalkT ts s τ f → WalkT ts q (e :: τ) f

/-- Walks concatenate. -/
theorem WalkT.append {ts : TransList} {q r f : String}
    {τ1 τ2 : List LogEntry} (h1 : WalkT ts q τ1 r) (h2 : WalkT ts r τ2 f) :
    WalkT ts q (τ1 ++ τ2) f := by
  induction h1 with
  | nil => exact h2
  | cons hl hm _ ih => exact WalkT.cons hl hm (ih h2)

/-- One dict simulates another along a state substitution: every bound
key with a nonempty image stays bound, with at least the substituted
image. -/
def ExtT (σ : String → String) (ts ts' : TransList) : Prop :=
  ∀ q w d, lookupT ts (q, w) = some d → d.Nonempty →
    ∃ d', lookupT ts' (σ q, w) = some d' ∧ d.image σ ⊆ d'

/-- The identity substitution over a sub-dict. -/
theorem ExtT.comp {σ1 σ2 : String → String} {t1 t2 t3 : TransList}
    (h1 : ExtT σ1 t1 t2) (h2 : ExtT σ2 t2 t3) : ExtT (fun s => σ2 (σ1 s)) t1 t3 := by
  intro q w d hl hne
  obtain ⟨d1, hd1, hs1⟩ := h1 q w d hl hne
  obtain ⟨d2, hd2, hs2⟩ := h2 (σ1 q) w d1 hd1
    ⟨σ1 hne.choose, hs1 (Finset.mem_image_of_mem _ hne.choose_spec)⟩
  refine ⟨d2, hd2, ?_⟩
  intro x hx
  obtain ⟨y, hy, rfl⟩ := Finset.mem_image.mp hx
  exact hs2 (hs1 (Finset.mem_image_of_mem _ hy) |> Finset.mem_image_of_mem σ2)

/-- Walks transport along a simulation. -/
theorem WalkT.map {σ : String → String} {ts ts' : TransList}
    (hext : ExtT σ ts ts') {q f : String} {τ : List LogEntry}
    (h : WalkT ts q τ f) : WalkT ts' (σ q) τ (σ f) := by
  induction h with
  | nil => exact WalkT.nil _
  | @cons q' f' s' e' τ' d' hl hm hw ih =>
      obtain ⟨d2, hd2, hs2⟩ := hext q' (e'.tid, none) d' hl ⟨s', hm⟩
      exact WalkT.cons hd2 (hs2 (Finset.mem_image_of_mem _ hm)) ih

/-- Under absent guards, the first-match scan is exactly the dict lookup
at `(source, (tid, None))`, and never fails. -/
theorem guardedScan_guardFree (ts : TransList) (hgf : guardFreeT ts)
    (q : String) (e : LogEntry) (ig : Bool) :
    guardedScan ts q e ig =
      .ok ((lookupT ts (q, (e.tid, none))).map
        (fun d => (d, ((e.tid, none) : Word)))) := by
  induction ts with
  | nil => rfl
  | cons p r ih =>
    obtain ⟨⟨src, tid, guard⟩, dst⟩ := p
    have hg : guard = none := hgf ((src, (tid, guard)), dst) (by simp)
    subst hg
    have ih' := ih (fun e he => hgf e (by simp [he]))
    by_cases hm : src = q ∧ e.tid = tid
    · obtain ⟨rfl, rfl⟩ := hm
      rw [guardedScan, if_pos ⟨rfl, rfl⟩, lookupT, if_pos rfl]
      rfl
    · rw [guardedScan, if_neg hm, lookupT, if_neg ?_]
      · exact ih'
      · intro hc
        simp only [Prod.mk.injEq] at hc
        exact hm ⟨hc.1, hc.2.1.symm⟩

/-- Under absent guards, one frontier step collects at least the image of
each frontier member, and never fails. -/
theorem stepFrontierAux_guardFree (m : NFA) (hgf : guardFreeT m.transitions)
    (e : LogEntry) : ∀ (l : List String) (acc : Finset String),
    ∃ nx, NFA.stepFrontierAux m e l acc = .ok nx ∧ acc ⊆ nx ∧
      ∀ q ∈ l, ∀ d, lookupT m.transitions (q, (e.tid, none)) = some d →
        d ⊆ nx := by
  intro l
  induction l with
  | nil => exact fun acc => ⟨acc, rfl, le_refl acc, by simp⟩
  | cons q r ih =>
    intro acc
    rw [NFA.stepFrontierAux, NFA.nfa_guarded_transition,
      guardedScan_guardFree m.transitions hgf q e false, exbind_ok]
    cases hl : lookupT m.transitions (q, (e.tid, none)) with
    | none =>
        obtain ⟨nx, hnx, hsub, hall⟩ := ih acc
        refine ⟨nx, by simpa [hl] using hnx, hsub, ?_⟩
        intro q' hq' d hd
        rcases List.mem_cons.mp hq' with rfl | hq'
        · rw [hl] at hd; cases hd
        · exact hall q' hq' d hd
    | some d0 =>
        obtain ⟨nx, hnx, hsub, hall⟩ := ih (acc ∪ d0)
        refine ⟨nx, by simpa [hl] using hnx,
          le_trans Finset.subset_union_left hsub, ?_⟩
        intro q' hq' d hd
        rcases List.mem_cons.mp hq' with rfl | hq'
        · rw [hl] at hd
          cases hd
          exact le_trans Finset.subset_union_right hsub
        · exact hall q' hq' d hd

/-- Under absent guards, the frontier loop accepts every trace some walk
of the automaton takes to an accepting state. -/
theorem checkLoop_of_walk (m : NFA) (hgf : guardFreeT m.transitions) :
    ∀ (τ : List LogEntry) (frontier : Finset String) (q f : String),
    q ∈ frontier → WalkT m.transitions q τ f → f ∈ m.accepting_states →
    m.checkLoop frontier τ = .ok true := by
  intro τ
  induction τ with
  | nil =>
      intro frontier q f hq hw hf
      cases hw
      rw [NFA.checkLoop, if_pos ⟨q, Finset.mem_inter.mpr ⟨hq, hf⟩⟩]
  | cons e rest ih =>
      intro frontier q f hq hw hf
      cases hw with
      | cons hl hm hrest =>
          rename_i s' d'
          obtain ⟨nx, hnx, _, hall⟩ :=
            stepFrontierAux_guardFree m hgf e (natsortedF frontier) ∅
          have hd : d' ⊆ nx := hall q (mem_natsortedF.mpr hq) d' hl
          have hs : s' ∈ nx := hd hm
          rw [NFA.checkLoop, hnx, exbind_ok,
            if_neg (by
              have : 0 < nx.card := Finset.card_pos.mpr ⟨s', hs⟩
              omega)]
          exact ih nx s' f hs hrest hf

/-- Under absent guards, `nfa_check_acceptance` accepts every trace walked
from the initial state into an accepting state. -/
theorem nfa_check_acceptance_of_walk (m : NFA) (hgf : guardFreeT m.transitions)
    (τ : List LogEntry) (f : String)
    (hw : WalkT m.transitions m.initial_state τ f)
    (hf : f ∈ m.accepting_states) :
    m.nfa_check_acceptance τ = .ok true :=
  checkLoop_of_walk m hgf τ {m.initial_state} m.initial_state f
    (Finset.mem_singleton_self _) hw hf

/-- A successful lookup exhibits a dict entry. -/
theorem lookupT_mem : ∀ (ts : TransList) (k : String × Word) (v : Finset String),
    lookupT ts k = some v → (k, v) ∈ ts := by
  intro ts
  induction ts with
  | nil => simp [lookupT]
  | cons p r ih =>
    intro k v h
    obtain ⟨k', v'⟩ := p
    by_cases hk : k' = k
    · rw [lookupT, if_pos hk] at h
      cases h
      simp [hk]
    · rw [lookupT, if_neg hk] at h
      exact List.mem_cons.mpr (Or.inr (ih k v h))

/-- Entries of an insert: an untouched old entry, the freshly added entry,
or the unioned entry at the inserted key. -/
theorem insertUnionT_cases (acc : TransList) (k : String × Word)
    (v : Finset String) :
    ∀ e ∈ insertUnionT acc k v, e ∈ acc ∨ (e.1 = k ∧ e.2 = v) ∨
      ∃ v0, (e.1, v0) ∈ acc ∧ e.1 = k ∧ e.2 = v0 ∪ v := by
  induction acc with
  | nil =>
      intro e he
      simp only [insertUnionT, List.mem_singleton] at he
      subst he
      exact Or.inr (Or.inl ⟨rfl, rfl⟩)
  | cons p r ih =>
    intro e he
    obtain ⟨k', v'⟩ := p
    by_cases hk : k' = k
    · subst hk
      rw [insertUnionT, if_pos rfl] at he
      rcases List.mem_cons.mp he with rfl | he
      · exact Or.inr (Or.inr ⟨v', by simp⟩)
      · exact Or.inl (by simp [he])
    · rw [insertUnionT, if_neg hk] at he
      rcases List.mem_cons.mp he with rfl | he
      · exact Or.inl (by simp)
      · rcases ih e he with h | h | ⟨v0, hv0, h1, h2⟩
        · exact Or.inl (by simp [h])
        · exact Or.inr (Or.inl h)
        · exact Or.inr (Or.inr ⟨v0, by simp [hv0], h1, h2⟩)

/-- Inserting preserves unique keys. -/
theorem insertUnionT_keys_nodup (acc : TransList) (k : String × Word)
    (v : Finset String) (h : (acc.map Prod.fst).Nodup) :
    ((insertUnionT acc k v).map Prod.fst).Nodup := by
  rw [insertUnionT_keys]
  by_cases hm : k ∈ acc.map Prod.fst
  · rwa [if_pos hm]
  · rw [if_neg hm]
    refine List.Nodup.append h (List.nodup_singleton k) ?_
    intro a ha hak
    rw [List.mem_singleton] at hak
    exact hm (hak ▸ ha)

/-- The naturally sorted list of a singleton set. -/
theorem natsortedF_singleton (x : String) : natsortedF {x} = [x] := by
  have hlen : (natsortedF {x}).length = 1 := by
    rw [length_natsortedF]
    simp
  have hmem : x ∈ natsortedF {x} := mem_natsortedF.mpr (by simp)
  cases hl : natsortedF {x} with
  | nil => rw [hl] at hlen; simp at hlen
  | cons a r =>
      rw [hl] at hlen hmem
      simp only [List.length_cons] at hlen
      have : r = [] := List.length_eq_zero.mp (by omega)
      subst this
      rw [List.mem_singleton.mp hmem]

/-- The walking loop of `slice` records a walk of the sliced dict, keeps
the visited-state bookkeeping, and only grows the accumulated dict. -/
theorem sliceGo_spec (m : NFA) (hgf : guardFreeT m.transitions) :
    ∀ (τ : List LogEntry) (curr : String) (alph : Finset Word)
      (sts : Finset String) (tr : TransList)
      (out : Finset Word × Finset String × TransList × String),
    sliceGo m τ curr alph sts tr = .ok out →
    curr ∈ sts →
    (∀ e ∈ tr, e.1.1 ∈ sts ∧ e.2 ⊆ sts ∧ e.2.Nonempty ∧ e.1.2.2 = none) →
    (tr.map Prod.fst).Nodup →
    sts ⊆ out.2.1 ∧ out.2.2.2 ∈ out.2.1 ∧
    (∀ e ∈ out.2.2.1, e.1.1 ∈ out.2.1 ∧ e.2 ⊆ out.2.1 ∧ e.2.Nonempty ∧
      e.1.2.2 = none) ∧
    ((out.2.2.1).map Prod.fst).Nodup ∧
    WalkT out.2.2.1 curr τ out.2.2.2 ∧
    (∀ k v, lookupT tr k = some v →
      ∃ v', lookupT out.2.2.1 k = some v' ∧ v ⊆ v') := by
  intro τ
  induction τ with
  | nil =>
      intro curr alph sts tr out h hcurr hent hnd
      cases h
      exact ⟨le_refl _, hcurr, hent, hnd, WalkT.nil _,
        fun k v hv => ⟨v, hv, le_refl v⟩⟩
  | cons e rest ih =>
      intro curr alph sts tr out h hcurr hent hnd
      rw [sliceGo, NFA.nfa_guarded_transition,
        guardedScan_guardFree m.transitions hgf curr e false, exbind_ok] at h
      cases hl : lookupT m.transitions (curr, (e.tid, none)) with
      | none =>
          rw [hl] at h
          rw [NFA.nfa_guarded_transition,
            guardedScan_guardFree m.transitions hgf curr e true, hl] at h
          simp at h
      | some d0 =>
          rw [hl] at h
          simp only [Option.map_some', pure_bind] at h
          by_cases hc : 2 ≤ d0.card
          · rw [if_pos hc] at h; simp at h
          · rw [if_neg hc] at h
            cases hsort : natsortedF d0 with
            | nil => rw [hsort] at h; simp at h
            | cons next ns =>
                rw [hsort] at h
                have hnext : next ∈ d0 :=
                  mem_natsortedF.mp (by rw [hsort]; simp)
                have hcurr' : next ∈ insert next sts := Finset.mem_insert_self _ _
                have hent' : ∀ e' ∈ insertUnionT tr (curr, (e.tid, none)) {next},
                    e'.1.1 ∈ insert next sts ∧ e'.2 ⊆ insert next sts ∧
                    e'.2.Nonempty ∧ e'.1.2.2 = none := by
                  intro e' he'
                  rcases insertUnionT_cases tr _ _ e' he' with hm | ⟨h1, h2⟩ |
                      ⟨v0, hv0, h1, h2⟩
                  · obtain ⟨ha, hb, hc', hd⟩ := hent e' hm
                    exact ⟨Finset.mem_insert_of_mem ha,
                      hb.trans (Finset.subset_insert _ _), hc', hd⟩
                  · refine ⟨?_, ?_, ?_, ?_⟩
                    · rw [h1]; exact Finset.mem_insert_of_mem hcurr
                    · rw [h2]; simp
                    · rw [h2]; simp
                    · rw [h1]
                  · obtain ⟨ha, hb, hc', hd⟩ := hent (e'.1, v0) (h1 ▸ hv0)
                    refine ⟨Finset.mem_insert_of_mem ha, ?_, ?_, hd⟩
                    · rw [h2]
                      refine Finset.union_subset
                        (hb.trans (Finset.subset_insert _ _)) (by simp)
                    · rw [h2]
                      exact Finset.Nonempty.mono Finset.subset_union_left hc'
                have hnd' := insertUnionT_keys_nodup tr (curr, (e.tid, none))
                  {next} hnd
                obtain ⟨hsub, hfin, hents, hnds, hwalk, hmono⟩ :=
                  ih next (insert (e.tid, none) alph) (insert next sts)
                    (insertUnionT tr (curr, (e.tid, none)) {next}) out h
                    hcurr' hent' hnd'
                refine ⟨le_trans (Finset.subset_insert _ _) hsub, hfin, hents,
                  hnds, ?_, ?_⟩
                · obtain ⟨v1, hv1, hs1⟩ := lookupT_insertUnionT_self tr
                    (curr, (e.tid, none)) {next}
                  obtain ⟨v2, hv2, hs2⟩ := hmono _ _ hv1
                  exact WalkT.cons hv2 (hs2 (hs1 (by simp))) hwalk
                · intro k v hv
                  obtain ⟨v1, hv1, hs1⟩ := lookupT_insertUnionT_mono tr
                    (curr, (e.tid, none)) {next} k v hv
                  obtain ⟨v2, hv2, hs2⟩ := hmono k v1 hv1
                  exact ⟨v2, hv2, hs1.trans hs2⟩

/-! ## Dict merge (`{**a, **b}`) lookups under key disjointness -/

/-- Association lookup through list append: a hit on the left survives. -/
theorem lookupT_append_left : ∀ (a b : TransList) (k : String × Word)
    (v : Finset String), lookupT a k = some v → lookupT (a ++ b) k = some v := by
  intro a b k v
  induction a with
  | nil => intro h; cases h
  | cons p r ih =>
    intro h
    obtain ⟨k', v'⟩ := p
    rw [List.cons_append]
    by_cases hk : k' = k
    · rw [lookupT, if_pos hk] at h ⊢
      exact h
    · rw [lookupT, if_neg hk] at h ⊢
      exact ih h

/-- Association lookup through list append: a left miss defers to the
right list. -/
theorem lookupT_append_none : ∀ (a b : TransList) (k : String × Word),
    lookupT a k = none → lookupT (a ++ b) k = lookupT b k := by
  intro a b k
  induction a with
  | nil => intro _; rfl
  | cons p r ih =>
    intro h
    obtain ⟨k', v'⟩ := p
    rw [List.cons_append]
    by_cases hk : k' = k
    · rw [lookupT, if_pos hk] at h; cases h
    · rw [lookupT, if_neg hk] at h
      rw [lookupT, if_neg hk]
      exact ih h

/-- The value-override map of the dict merge keeps a left binding whose key
misses the second dict. -/
theorem lookupT_override_of_none (b : TransList) :
    ∀ (a : TransList) (k : String × Word) (v : Finset String),
    lookupT b k = none → lookupT a k = some v →
    lookupT (a.map (fun e => match lookupT b e.1 with
      | some w => (e.1, w) | none => e)) k = some v := by
  intro a
  induction a with
  | nil => intro k v _ h; cases h
  | cons p r ih =>
    intro k v hb h
    obtain ⟨k', v'⟩ := p
    rw [List.map_cons]
    by_cases hk : k' = k
    · subst hk
      rw [lookupT, if_pos rfl] at h
      cases h
      have hhead : (match lookupT b ((k', v) : (String × Word) × Finset String).1 with
          | some w => (((k', v) : (String × Word) × Finset String).1, w)
          | none => ((k', v) : (String × Word) × Finset String))
          = ((k', v) : (String × Word) × Finset String) := by
        show (match lookupT b k' with
          | some w => ((k' : String × Word), w)
          | none => ((k', v) : (String × Word) × Finset String))
          = ((k', v) : (String × Word) × Finset String)
        rw [hb]
      rw [hhead, lookupT, if_pos rfl]
    · rw [lookupT, if_neg hk] at h
      cases hlb : lookupT b k' with
      | none =>
          show lookupT (((k', v') : (String × Word) × Finset String) ::
            List.map (fun e => match lookupT b e.1 with
              | some w => (e.1, w) | none => e) r) k = some v
          rw [lookupT, if_neg hk]
          exact ih k v hb h
      | some w =>
          show lookupT (((k', w) : (String × Word) × Finset String) ::
            List.map (fun e => match lookupT b e.1 with
              | some w => (e.1, w) | none => e) r) k = some v
          rw [lookupT, if_neg hk]
          exact ih k v hb h

/-- The value-override map of the dict merge binds no new keys. -/
theorem lookupT_override_none (b : TransList) :
    ∀ (a : TransList) (k : String × Word), lookupT a k = none →
    lookupT (a.map (fun e => match lookupT b e.1 with
      | some w => (e.1, w) | none => e)) k = none := by
  intro a
  induction a with
  | nil => intro k _; rfl
  | cons p r ih =>
    intro k h
    obtain ⟨k', v'⟩ := p
    by_cases hk : k' = k
    · rw [lookupT, if_pos hk] at h; cases h
    · rw [lookupT, if_neg hk] at h
      rw [List.map_cons]
      cases hlb : lookupT b k' with
      | none =>
          show lookupT (((k', v') : (String × Word) × Finset String) ::
            List.map (fun e => match lookupT b e.1 with
              | some w => (e.1, w) | none => e) r) k = none
          rw [lookupT, if_neg hk]
          exact ih k h
      | some w =>
          show lookupT (((k', w) : (String × Word) × Finset String) ::
            List.map (fun e => match lookupT b e.1 with
              | some w => (e.1, w) | none => e) r) k = none
          rw [lookupT, if_neg hk]
          exact ih k h

/-- A lookup through a key-respecting filter agrees with the unfiltered
lookup when every entry at the key passes the filter. -/
theorem lookupT_filter_keys (p : (String × Word) × Finset String → Bool) :
    ∀ (ts : TransList) (k : String × Word),
    (∀ e ∈ ts, e.1 = k → p e = true) →
    lookupT (ts.filter p) k = lookupT ts k := by
  intro ts
  induction ts with
  | nil => intro k _; rfl
  | cons e r ih =>
    intro k hp
    obtain ⟨k', v'⟩ := e
    by_cases hk : k' = k
    · have hpe : p ((k', v')) = true := hp ((k', v')) (by simp) hk
      rw [List.filter_cons_of_pos hpe, lookupT, if_pos hk, lookupT, if_pos hk]
    · cases hpe : p ((k', v')) with
      | true =>
          rw [List.filter_cons_of_pos hpe, lookupT, if_neg hk, lookupT, if_neg hk]
          exact ih k (fun e' he' => hp e' (by simp [he']))
      | false =>
          rw [List.filter_cons_of_neg (by simp [hpe]), lookupT, if_neg hk]
          exact ih k (fun e' he' => hp e' (by simp [he']))

/-- A binding of the first dict whose key misses the second dict survives
the dict merge. -/
theorem lookupT_dictMergeT_left (a b : TransList) (k : String × Word)
    (v : Finset String) (ha : lookupT a k = some v) (hb : lookupT b k = none) :
    lookupT (dictMergeT a b) k = some v :=
  lookupT_append_left _ _ _ _ (lookupT_override_of_none b a k v hb ha)

/-- A binding of the second dict whose key misses the first dict survives
the dict merge. -/
theorem lookupT_dictMergeT_right (a b : TransList) (k : String × Word)
    (v : Finset String) (hb : lookupT b k = some v) (ha : lookupT a k = none) :
    lookupT (dictMergeT a b) k = some v := by
  rw [dictMergeT, lookupT_append_none _ _ _ (lookupT_override_none b a k ha),
    lookupT_filter_keys _ b k ?_, hb]
  intro e _ hek
  rw [hek, ha]
  rfl

/-- Every entry of the dict merge is an entry of one of the two dicts. -/
theorem dictMergeT_mem (a b : TransList) :
    ∀ e ∈ dictMergeT a b, e ∈ a ∨ e ∈ b := by
  intro e he
  rw [dictMergeT] at he
  rcases List.mem_append.mp he with h | h
  · obtain ⟨e0, he0, heq⟩ := List.mem_map.mp h
    cases hlb : lookupT b e0.1 with
    | none =>
        rw [hlb] at heq
        left
        rw [← heq]
        exact he0
    | some w =>
        rw [hlb] at heq
        right
        rw [← heq]
        exact lookupT_mem b e0.1 w hlb
  · exact Or.inr (List.mem_filter.mp h).1

/-! ## Superset lookups through the rename and merge folds -/

/-- The rename fold only grows what a lookup finds. -/
theorem renameTrans_mono (ρ : String → String) :
    ∀ (ts acc : TransList) (k : String × Word) (v : Finset String),
    lookupT acc k = some v →
    ∃ v', lookupT (renameTrans ρ ts acc) k = some v' ∧ v ⊆ v' := by
  intro ts
  induction ts with
  | nil => exact fun acc k v h => ⟨v, h, le_refl v⟩
  | cons p r ih =>
    intro acc k v h
    obtain ⟨⟨src, w⟩, dst⟩ := p
    rw [renameTrans]
    by_cases hd : dst = ∅
    · rw [if_pos hd]
      exact ih acc k v h
    · rw [if_neg hd]
      obtain ⟨v1, hv1, h1⟩ := lookupT_insertUnionT_mono acc (ρ src, w)
        (dst.image ρ) k v h
      obtain ⟨v2, hv2, h2⟩ := ih _ k v1 hv1
      exact ⟨v2, hv2, h1.trans h2⟩

/-- Every nonempty-image entry is represented in the rename fold: the
renamed key maps to a superset of the renamed image. -/
theorem renameTrans_lookup_sup (ρ : String → String) :
    ∀ (ts acc : TransList), ∀ e ∈ ts, e.2 ≠ ∅ →
    ∃ d', lookupT (renameTrans ρ ts acc) (ρ e.1.1, e.1.2) = some d' ∧
      e.2.image ρ ⊆ d' := by
  intro ts
  induction ts with
  | nil => simp
  | cons p r ih =>
    intro acc e he hne
    obtain ⟨⟨src, w⟩, dst⟩ := p
    rcases List.mem_cons.mp he with rfl | he
    · rw [renameTrans, if_neg hne]
      obtain ⟨v1, hv1, h1⟩ := lookupT_insertUnionT_self acc (ρ src, w)
        (dst.image ρ)
      obtain ⟨v2, hv2, h2⟩ := renameTrans_mono ρ r _ _ _ hv1
      exact ⟨v2, hv2, h1.trans h2⟩
    · rw [renameTrans]
      by_cases hd : dst = ∅
      · rw [if_pos hd]
        exact ih acc e he hne
      · rw [if_neg hd]
        exact ih _ e he hne

/-! ## Simulation constructors for the walk transport -/

/-- Identity simulation into a dict merge whose second component misses
all the first dict's keys. -/
theorem ExtT_dictMergeT_left (a b : TransList)
    (h : ∀ k v, lookupT a k = some v → lookupT b k = none) :
    ExtT (fun s => s) a (dictMergeT a b) := by
  intro q w d hl _
  refine ⟨d, lookupT_dictMergeT_left a b (q, w) d hl (h _ _ hl), ?_⟩
  intro x hx
  obtain ⟨y, hy, rfl⟩ := Finset.mem_image.mp hx
  exact hy

/-- Identity simulation into a dict merge whose first component misses all
the second dict's keys. -/
theorem ExtT_dictMergeT_right (a b : TransList)
    (h : ∀ k v, lookupT b k = some v → lookupT a k = none) :
    ExtT (fun s => s) b (dictMergeT a b) := by
  intro q w d hl _
  refine ⟨d, lookupT_dictMergeT_right a b (q, w) d hl (h _ _ hl), ?_⟩
  intro x hx
  obtain ⟨y, hy, rfl⟩ := Finset.mem_image.mp hx
  exact hy

/-- The merge substitution simulates the original dict into the
merge-redirected dict. -/
theorem ExtT_mergeRedirect (ss : Finset String) (s_m : String)
    (ts : TransList) : ExtT (mergeSigma ss s_m) ts (mergeRedirect ss s_m ts []) := by
  intro q w d hl _
  exact lookupT_mergeRedirect ss s_m ts [] ((q, w), d) (lookupT_mem ts (q, w) d hl)

/-- The rename map simulates the original dict into the renamed dict. -/
theorem ExtT_renameTrans (ρ : String → String) (ts : TransList) :
    ExtT ρ ts (renameTrans ρ ts []) := by
  intro q w d hl hne
  exact renameTrans_lookup_sup ρ ts [] ((q, w), d)
    (lookupT_mem ts (q, w) d hl) (Finset.nonempty_iff_ne_empty.mp hne)

/-! ## Entry invariants through the folds -/

/-- Entry invariants transported through the merge-redirect fold. -/
theorem mergeRedirect_entries (ss : Finset String) (s_m : String)
    (S T : Finset String) (hσ : ∀ s ∈ S, mergeSigma ss s_m s ∈ T) :
    ∀ (ts acc : TransList),
    (∀ e ∈ ts, e.1.1 ∈ S ∧ e.2 ⊆ S ∧ e.2.Nonempty ∧
      e.1.2.2 = (none : Option Guard)) →
    (∀ e ∈ acc, e.1.1 ∈ T ∧ e.2 ⊆ T ∧ e.2.Nonempty ∧
      e.1.2.2 = (none : Option Guard)) →
    ∀ e ∈ mergeRedirect ss s_m ts acc,
      e.1.1 ∈ T ∧ e.2 ⊆ T ∧ e.2.Nonempty ∧
      e.1.2.2 = (none : Option Guard) := by
  intro ts
  induction ts with
  | nil => exact fun acc _ hacc => hacc
  | cons p r ih =>
    intro acc hts hacc
    obtain ⟨⟨src, w⟩, dst⟩ := p
    obtain ⟨h1, h2, h3, h4⟩ := hts ((src, w), dst) (by simp)
    refine ih (insertUnionT acc ((if src ∈ ss then s_m else src), w)
        (if (dst ∩ ss).Nonempty then (dst \ ss) ∪ {s_m} else dst))
      (fun e' he' => hts e' (by simp [he'])) ?_
    intro e' he'
    rcases insertUnionT_cases acc _ _ e' he' with hm | ⟨hk, hv⟩ |
        ⟨v0, hv0, hk, hv⟩
    · exact hacc e' hm
    · refine ⟨?_, ?_, ?_, ?_⟩
      · rw [hk]
        exact hσ src h1
      · rw [hv, mergeRewrite_eq_image]
        intro x hx
        obtain ⟨y, hy, rfl⟩ := Finset.mem_image.mp hx
        exact hσ y (h2 hy)
      · rw [hv, mergeRewrite_eq_image]
        exact h3.image _
      · rw [hk]
        exact h4
    · obtain ⟨g1, g2, g3, g4⟩ := hacc (e'.1, v0) hv0
      refine ⟨g1, ?_, ?_, g4⟩
      · rw [hv]
        refine Finset.union_subset g2 ?_
        rw [mergeRewrite_eq_image]
        intro x hx
        obtain ⟨y, hy, rfl⟩ := Finset.mem_image.mp hx
        exact hσ y (h2 hy)
      · rw [hv]
        exact g3.mono Finset.subset_union_left

/-- Entry invariants transported through the rename fold. -/
theorem renameTrans_entries (ρ : String → String) (S T : Finset String)
    (hρ : ∀ s ∈ S, ρ s ∈ T) :
    ∀ (ts acc : TransList),
    (∀ e ∈ ts, e.1.1 ∈ S ∧ e.2 ⊆ S ∧ e.1.2.2 = (none : Option Guard)) →
    (∀ e ∈ acc, e.1.1 ∈ T ∧ e.2 ⊆ T ∧ e.2.Nonempty ∧
      e.1.2.2 = (none : Option Guard)) →
    ∀ e ∈ renameTrans ρ ts acc,
      e.1.1 ∈ T ∧ e.2 ⊆ T ∧ e.2.Nonempty ∧
      e.1.2.2 = (none : Option Guard) := by
  intro ts
  induction ts with
  | nil => exact fun acc _ hacc => hacc
  | cons p r ih =>
    intro acc hts hacc e he
    obtain ⟨⟨src, w⟩, dst⟩ := p
    obtain ⟨h1, h2, h4⟩ := hts ((src, w), dst) (by simp)
    rw [renameTrans] at he
    by_cases hd : dst = ∅
    · rw [if_pos hd] at he
      exact ih acc (fun e' he' => hts e' (by simp [he'])) hacc e he
    · rw [if_neg hd] at he
      refine ih _ (fun e' he' => hts e' (by simp [he'])) ?_ e he
      intro e' he'
      rcases insertUnionT_cases acc _ _ e' he' with hm | ⟨hk, hv⟩ |
          ⟨v0, hv0, hk, hv⟩
      · exact hacc e' hm
      · refine ⟨?_, ?_, ?_, ?_⟩
        · rw [hk]
          exact hρ src h1
        · rw [hv]
          intro x hx
          obtain ⟨y, hy, rfl⟩ := Finset.mem_image.mp hx
          exact hρ y (h2 hy)
        · rw [hv]
          exact (Finset.nonempty_iff_ne_empty.mpr hd).image ρ
        · rw [hk]
          exact h4
      · obtain ⟨g1, g2, g3, g4⟩ := hacc (e'.1, v0) hv0
        refine ⟨g1, ?_, ?_, g4⟩
        · rw [hv]
          refine Finset.union_subset g2 ?_
          intro x hx
          obtain ⟨y, hy, rfl⟩ := Finset.mem_image.mp hx
          exact hρ y (h2 hy)
        · rw [hv]
          exact g3.mono Finset.subset_union_left

/-! ## The merge substitution on states and accepting sets -/

/-- The merge substitution maps old states into the merged state set. -/
theorem mergeSigma_mem (ss : Finset String) (s_m : String)
    (S : Finset String) (s : String) (hs : s ∈ S) :
    mergeSigma ss s_m s ∈ (S \ ss) ∪ {s_m} := by
  rw [mergeSigma]
  by_cases h : s ∈ ss
  · rw [if_pos h]
    simp
  · rw [if_neg h]
    exact Finset.mem_union_left _ (Finset.mem_sdiff.mpr ⟨hs, h⟩)

/-- The merge substitution maps accepting states into the merged
accepting set. -/
theorem mergeSigma_mem_acc (ss : Finset String) (s_m : String)
    (A : Finset String) (f : String) (hf : f ∈ A) :
    mergeSigma ss s_m f ∈
      (A \ ss) ∪ (if (A ∩ ss).Nonempty then {s_m} else ∅) := by
  rw [mergeSigma]
  by_cases h : f ∈ ss
  · rw [if_pos h, if_pos ⟨f, Finset.mem_inter.mpr ⟨hf, h⟩⟩]
    simp
  · rw [if_neg h]
    exact Finset.mem_union_left _ (Finset.mem_sdiff.mpr ⟨hf, h⟩)

/-- Merging rewrites a singleton accepting set to the singleton of the
substituted element. -/
theorem merge_acc_singleton (ss : Finset String) (s_m f : String) :
    (({f} : Finset String) \ ss) ∪
      (if (({f} : Finset String) ∩ ss).Nonempty then {s_m} else ∅)
      = {mergeSigma ss s_m f} := by
  by_cases h : f ∈ ss
  · rw [mergeSigma, if_pos h]
    have h1 : ({f} : Finset String) \ ss = ∅ := by
      rw [Finset.sdiff_eq_empty_iff_subset]
      simpa using h
    have h2 : ((({f} : Finset String)) ∩ ss).Nonempty :=
      ⟨f, Finset.mem_inter.mpr (by simp [h])⟩
    rw [h1, if_pos h2, Finset.empty_union]
  · rw [mergeSigma, if_neg h]
    have h1 : ({f} : Finset String) \ ss = {f} := by
      ext x
      simp only [Finset.mem_sdiff, Finset.mem_singleton]
      constructor
      · rintro ⟨hx, _⟩
        exact hx
      · rintro rfl
        exact ⟨rfl, h⟩
    have h2 : ¬ ((({f} : Finset String)) ∩ ss).Nonempty := by
      rintro ⟨x, hx⟩
      rw [Finset.mem_inter, Finset.mem_singleton] at hx
      exact h (hx.1 ▸ hx.2)
    rw [h1, if_neg h2, Finset.union_empty]

/-- Dicts whose sources live in disjoint state sets bind disjoint keys. -/
theorem keys_disjoint_of_states (a b : TransList) (Sa Sb : Finset String)
    (ha : ∀ e ∈ a, e.1.1 ∈ Sa) (hb : ∀ e ∈ b, e.1.1 ∈ Sb)
    (hdisj : ∀ s ∈ Sa, s ∉ Sb) :
    ∀ k v, lookupT a k = some v → lookupT b k = none := by
  intro k v h
  cases hbk : lookupT b k with
  | none => rfl
  | some w =>
    exact absurd (hb (k, w) (lookupT_mem b k w hbk))
      (hdisj k.1 (ha (k, v) (lookupT_mem a k v h)))

/-! ## The stitching invariant -/

/-- The per-entry invariant the slicing and stitching pipeline maintains:
sources in `Q`, images nonempty subsets of `Q`, absent guards. -/
def GInv (m : NFA) : Prop :=
  ∀ e ∈ m.transitions, e.1.1 ∈ m.states ∧ e.2 ⊆ m.states ∧ e.2.Nonempty ∧
    e.1.2.2 = (none : Option Guard)

/-- What the stitching loop guarantees of each accumulated model: a
guard-free automaton with one accepting state, reached from the initial
state by walking the trace consumed so far. -/
def SlicedInv (m : NFA) (τ : List LogEntry) : Prop :=
  m.initial_state ∈ m.states ∧ GInv m ∧
  ∃ f, m.accepting_states = {f} ∧ f ∈ m.states ∧
    WalkT m.transitions m.initial_state τ f

/-- `check_and_remove_redundant_states` yields a model state-disjoint from
the receiver that is the argument or a renaming of it. -/
theorem check_and_remove_spec (m nfa nfa' : NFA)
    (h : m.check_and_remove_redundant_states nfa = .ok nfa') :
    (∀ s ∈ m.states, s ∉ nfa'.states) ∧
      (nfa' = nfa ∨ ∃ pad : Int, nfa' = nfa.rename_states pad) := by
  unfold NFA.check_and_remove_redundant_states at h
  by_cases hne : (m.states ∩ nfa.states).Nonempty
  · rw [if_pos hne] at h
    cases hlast : (natsortedF m.states).getLast? with
    | none =>
        rw [hlast] at h
        simp at h
    | some last =>
        rw [hlast] at h
        replace h : (match (splitComma last.data).getLast? with
          | none => (.error "IndexError: empty split" : Except String NFA)
          | some part =>
              match parseNatChars part with
              | none => .error "ValueError: int()"
              | some maxn =>
                  if (m.states ∩
                      (nfa.rename_states ((maxn : Int) + 1)).states).Nonempty then
                    .error "assert: redundant states remain"
                  else .ok (nfa.rename_states ((maxn : Int) + 1))) = .ok nfa' := h
        cases hsplit : (splitComma last.data).getLast? with
        | none =>
            rw [hsplit] at h
            simp at h
        | some part =>
            rw [hsplit] at h
            replace h : (match parseNatChars part with
              | none => (.error "ValueError: int()" : Except String NFA)
              | some maxn =>
                  if (m.states ∩
                      (nfa.rename_states ((maxn : Int) + 1)).states).Nonempty then
                    .error "assert: redundant states remain"
                  else .ok (nfa.rename_states ((maxn : Int) + 1))) = .ok nfa' := h
            cases hparse : parseNatChars part with
            | none =>
                rw [hparse] at h
                simp at h
            | some maxn =>
                rw [hparse] at h
                replace h : (if (m.states ∩
                    (nfa.rename_states ((maxn : Int) + 1)).states).Nonempty then
                      (.error "assert: redundant states remain" : Except String NFA)
                    else .ok (nfa.rename_states ((maxn : Int) + 1))) = .ok nfa' := h
                by_cases hne2 : (m.states ∩
                    (nfa.rename_states ((maxn : Int) + 1)).states).Nonempty
                · rw [if_pos hne2] at h
                  simp at h
                · rw [if_neg hne2] at h
                  have hnn := Except.ok.inj h
                  subst hnn
                  refine ⟨?_, Or.inr ⟨(maxn : Int) + 1, rfl⟩⟩
                  intro s hs hs'
                  exact hne2 ⟨s, Finset.mem_inter.mpr ⟨hs, hs'⟩⟩
  · rw [if_neg hne] at h
    have hnn := Except.ok.inj h
    subst hnn
    refine ⟨?_, Or.inl rfl⟩
    intro s hs hs'
    exact hne ⟨s, Finset.mem_inter.mpr ⟨hs, hs'⟩⟩

/-- `rename_states` preserves the stitching invariant. -/
theorem rename_good (m : NFA) (pad : Int) (τ : List LogEntry)
    (h : SlicedInv m τ) : SlicedInv (m.rename_states pad) τ := by
  obtain ⟨hinit, hginv, f, hacc, hf, hw⟩ := h
  refine ⟨Finset.mem_image_of_mem (m.rename_map pad) hinit, ?_,
    m.rename_map pad f, ?_, Finset.mem_image_of_mem (m.rename_map pad) hf, ?_⟩
  · intro e he
    exact renameTrans_entries (m.rename_map pad) m.states
      (m.states.image (m.rename_map pad))
      (fun s hs => Finset.mem_image_of_mem _ hs) m.transitions []
      (fun e' he' => ⟨(hginv e' he').1, (hginv e' he').2.1,
        (hginv e' he').2.2.2⟩)
      (by simp) e he
  · show m.accepting_states.image (m.rename_map pad) = {m.rename_map pad f}
    rw [hacc, Finset.image_singleton]
  · exact WalkT.map (ExtT_renameTrans (m.rename_map pad) m.transitions) hw

/-- `NFA.append` fuses two stitching-invariant models; the result carries
the concatenated trace. -/
theorem append_good (m nfa r : NFA) (τ1 τ2 : List LogEntry)
    (hm : SlicedInv m τ1) (hn : SlicedInv nfa τ2)
    (h : m.append nfa = .ok r) : SlicedInv r (τ1 ++ τ2) := by
  obtain ⟨hin1, hg1, f1, hacc1, hf1, hw1⟩ := hm
  unfold NFA.append at h
  by_cases hcard : m.accepting_states.card ≠ 1
  · rw [if_pos hcard] at h
    simp at h
  rw [if_neg hcard, hacc1, natsortedF_singleton] at h
  obtain ⟨nfa', hnfa', h3⟩ := bind_ok_inv _ _ _ h
  obtain ⟨hdisj0, hren⟩ := check_and_remove_spec m nfa nfa' hnfa'
  have hn' : SlicedInv nfa' τ2 := by
    rcases hren with rfl | ⟨pad, rfl⟩
    · exact hn
    · exact rename_good nfa pad τ2 hn
  obtain ⟨hin2', hg2', f2', hacc2', hf2', hw2'⟩ := hn'
  obtain ⟨p, hp, h4⟩ := bind_ok_inv _ _ _ h3
  obtain ⟨hlt, hsubQ, hpe⟩ := (merge_states_ok_iff _ _ _).mp hp
  subst hpe
  have hmr := Except.ok.inj h4
  subst hmr
  -- abbreviations for the merged pair of states and the base automaton
  have hbase_ents : ∀ e ∈ dictMergeT m.transitions nfa'.transitions,
      e.1.1 ∈ m.states ∪ nfa'.states ∧ e.2 ⊆ m.states ∪ nfa'.states ∧
      e.2.Nonempty ∧ e.1.2.2 = (none : Option Guard) := by
    intro e he
    rcases dictMergeT_mem _ _ e he with hmem | hmem
    · obtain ⟨a1, a2, a3, a4⟩ := hg1 e hmem
      exact ⟨Finset.mem_union_left _ a1,
        a2.trans Finset.subset_union_left, a3, a4⟩
    · obtain ⟨a1, a2, a3, a4⟩ := hg2' e hmem
      exact ⟨Finset.mem_union_right _ a1,
        a2.trans Finset.subset_union_right, a3, a4⟩
  have hkey_lr : ∀ k v, lookupT m.transitions k = some v →
      lookupT nfa'.transitions k = none :=
    keys_disjoint_of_states m.transitions nfa'.transitions m.states nfa'.states
      (fun e he => (hg1 e he).1) (fun e he => (hg2' e he).1) hdisj0
  have hkey_rl : ∀ k v, lookupT nfa'.transitions k = some v →
      lookupT m.transitions k = none :=
    keys_disjoint_of_states nfa'.transitions m.transitions nfa'.states m.states
      (fun e he => (hg2' e he).1) (fun e he => (hg1 e he).1)
      (fun s hs hs' => hdisj0 s hs' hs)
  -- the two walks, transported into the fused dict
  have hw1b : WalkT (dictMergeT m.transitions nfa'.transitions)
      m.initial_state τ1 f1 :=
    WalkT.map (ExtT_dictMergeT_left _ _ hkey_lr) hw1
  have hw2b : WalkT (dictMergeT m.transitions nfa'.transitions)
      nfa'.initial_state τ2 f2' :=
    WalkT.map (ExtT_dictMergeT_right _ _ hkey_rl) hw2'
  have hσ1 : mergeSigma {f1, nfa'.initial_state}
      (joinComma (natsortedF {f1, nfa'.initial_state})) f1
      = joinComma (natsortedF {f1, nfa'.initial_state}) := by
    rw [mergeSigma, if_pos (Finset.mem_insert_self f1 {nfa'.initial_state})]
  have hσ2 : mergeSigma {f1, nfa'.initial_state}
      (joinComma (natsortedF {f1, nfa'.initial_state})) nfa'.initial_state
      = joinComma (natsortedF {f1, nfa'.initial_state}) := by
    rw [mergeSigma,
      if_pos (Finset.mem_insert_of_mem (Finset.mem_singleton_self _))]
  have hw1m := WalkT.map (ExtT_mergeRedirect {f1, nfa'.initial_state}
    (joinComma (natsortedF {f1, nfa'.initial_state}))
    (dictMergeT m.transitions nfa'.transitions)) hw1b
  have hw2m := WalkT.map (ExtT_mergeRedirect {f1, nfa'.initial_state}
    (joinComma (natsortedF {f1, nfa'.initial_state}))
    (dictMergeT m.transitions nfa'.transitions)) hw2b
  rw [hσ1] at hw1m
  rw [hσ2] at hw2m
  have hwalk := hw1m.append hw2m
  refine ⟨?_, ?_, mergeSigma {f1, nfa'.initial_state}
    (joinComma (natsortedF {f1, nfa'.initial_state})) f2', ?_, ?_, ?_⟩
  · exact mergeSigma_mem _ _ (m.states ∪ nfa'.states) m.initial_state
      (Finset.mem_union_left _ hin1)
  · intro e he
    exact mergeRedirect_entries {f1, nfa'.initial_state}
      (joinComma (natsortedF {f1, nfa'.initial_state}))
      (m.states ∪ nfa'.states)
      (((m.states ∪ nfa'.states) \ {f1, nfa'.initial_state}) ∪
        {joinComma (natsortedF {f1, nfa'.initial_state})})
      (fun s hs => mergeSigma_mem _ _ _ s hs)
      (dictMergeT m.transitions nfa'.transitions) [] hbase_ents (by simp) e he
  · show (nfa'.accepting_states \ {f1, nfa'.initial_state}) ∪
      (if (nfa'.accepting_states ∩ {f1, nfa'.initial_state}).Nonempty
       then {joinComma (natsortedF {f1, nfa'.initial_state})} else ∅)
      = {mergeSigma {f1, nfa'.initial_state}
          (joinComma (natsortedF {f1, nfa'.initial_state})) f2'}
    rw [hacc2', merge_acc_singleton]
  · exact mergeSigma_mem _ _ (m.states ∪ nfa'.states) f2'
      (Finset.mem_union_right _ hf2')
  · exact hwalk

/-- A successful slice satisfies the stitching invariant over its trace. -/
theorem slice_spec (m : NFA) (hgf : guardFreeT m.transitions)
    (τ : List LogEntry) (cursor : String) (res : NFA × NFA × String)
    (h : m.slice τ cursor = .ok res) : SlicedInv res.2.1 τ := by
  unfold NFA.slice at h
  obtain ⟨nd, hnd, h2⟩ := bind_ok_inv _ _ _ h
  by_cases hs : nd.isSome = true
  · rw [if_pos hs] at h2
    simp at h2
  · rw [if_neg hs] at h2
    obtain ⟨out, hout, h3⟩ := bind_ok_inv _ _ _ h2
    obtain ⟨alph, sts, tr, fin⟩ := out
    have hres := Except.ok.inj h3
    obtain ⟨hsub, hfin, hents, hnds, hwalk, hmono⟩ :=
      sliceGo_spec m hgf τ cursor ∅ {cursor} [] (alph, sts, tr, fin) hout
        (Finset.mem_singleton_self cursor) (by simp) (by simp)
    rw [← hres]
    exact ⟨hsub (Finset.mem_singleton_self cursor),
      fun e he => hents e he, fin, rfl, hfin, hwalk⟩

/-- The partition's segments concatenate back to the trace. -/
theorem partitionGo_flatten : ∀ (l : List LogEntry), l ≠ [] →
    ∀ acc, ((partitionGo l acc).map Prod.snd).flatten = acc ++ l := by
  intro l
  induction l with
  | nil => intro h; exact absurd rfl h
  | cons e rest ih =>
    intro _ acc
    cases rest with
    | nil => simp [partitionGo]
    | cons e2 rest2 =>
      rw [partitionGo]
      by_cases hc : e2.component = e.component
      · rw [if_pos hc, ih (by simp) (acc ++ [e])]
        simp
      · rw [if_neg hc]
        simp only [List.map_cons, List.flatten_cons]
        rw [ih (by simp) []]
        simp

/-- A model found in the component map is one of its entries. -/
theorem lookupModel_mem : ∀ (models : ModelMap) (c : String) (mo : NFA),
    lookupModel models c = some mo → (c, mo) ∈ models := by
  intro models
  induction models with
  | nil => intro c mo h; cases h
  | cons p r ih =>
    intro c mo h
    obtain ⟨k, v⟩ := p
    by_cases hk : k = c
    · rw [lookupModel, if_pos hk] at h
      cases h
      simp [hk]
    · rw [lookupModel, if_neg hk] at h
      exact List.mem_cons.mpr (Or.inr (ih c mo h))

/-- The accumulator relation of the stitching loop: `None` stands for no
trace consumed yet. -/
def StAcc : Option NFA → List LogEntry → Prop
  | none, τ => τ = []
  | some a, τ => SlicedInv a τ

/-- The stitching loop extends the accumulated model by the concatenation
of the processed segments. -/
theorem stitchGo_spec (models : ModelMap)
    (hgf : ∀ p ∈ models, guardFreeT p.2.transitions) :
    ∀ (segs : List (String × List LogEntry))
      (cursors : List (String × String)) (acc res : Option NFA)
      (τ0 : List LogEntry),
    stitchGo models segs cursors acc = .ok res →
    StAcc acc τ0 →
    StAcc res (τ0 ++ (segs.map Prod.snd).flatten) := by
  intro segs
  induction segs with
  | nil =>
    intro cursors acc res τ0 h hacc
    cases h
    simpa using hacc
  | cons sg rest ih =>
    intro cursors acc res τ0 h hacc
    obtain ⟨comp, seg⟩ := sg
    rw [stitchGo] at h
    cases hmo : lookupModel models comp with
    | none =>
        rw [hmo] at h
        simp at h
    | some mo =>
      rw [hmo] at h
      obtain ⟨sl, hsl, h2⟩ := bind_ok_inv _ _ _ h
      obtain ⟨mm, sliced, newCur⟩ := sl
      have hmoGF : guardFreeT mo.transitions :=
        hgf (comp, mo) (lookupModel_mem models comp mo hmo)
      have hslice := slice_spec mo hmoGF seg _ (mm, sliced, newCur) hsl
      cases acc with
      | none =>
        replace h2 : stitchGo models rest (setCursor cursors comp newCur)
            (some sliced) = .ok res := h2
        have hrec := ih (setCursor cursors comp newCur) (some sliced) res seg
          h2 hslice
        have hτ : τ0 = [] := hacc
        subst hτ
        simpa using hrec
      | some a =>
        obtain ⟨a', ha', h3⟩ := bind_ok_inv _ _ _ h2
        replace h3 : stitchGo models rest (setCursor cursors comp newCur)
            (some a') = .ok res := h3
        have hgood := append_good a sliced a' τ0 seg hacc hslice ha'
        have hrec := ih (setCursor cursors comp newCur) (some a') res
          (τ0 ++ seg) h3 hgood
        simpa [List.append_assoc] using hrec

/-- Stitching a corpus yields, execution by execution, models satisfying
the invariant over their full traces. -/
theorem stitchAll_spec (models : ModelMap)
    (hgf : ∀ p ∈ models, guardFreeT p.2.transitions) :
    ∀ (l_vectors : List (List LogEntry)) (stitched : List (Option NFA))
      (appended : List NFA),
    stitchAll models l_vectors = .ok stitched →
    seqModels stitched = .ok appended →
    List.Forall₂ (fun a τ => SlicedInv a τ) appended l_vectors := by
  intro l_vectors
  induction l_vectors with
  | nil =>
    intro stitched appended h1 h2
    cases h1
    cases h2
    exact List.Forall₂.nil
  | cons lv rest ih =>
    intro stitched appended h1 h2
    rw [stitchAll] at h1
    obtain ⟨a, ha, h3⟩ := bind_ok_inv _ _ _ h1
    obtain ⟨rr, hr, h4⟩ := bind_ok_inv _ _ _ h3
    have hst := Except.ok.inj h4
    subst hst
    cases a with
    | none =>
        rw [seqModels] at h2
        simp at h2
    | some a0 =>
      rw [seqModels] at h2
      obtain ⟨r0, hr0, h5⟩ := bind_ok_inv _ _ _ h2
      have hap := Except.ok.inj h5
      subst hap
      have hlv : lv ≠ [] := by
        rintro rfl
        replace ha : (Except.ok (none : Option NFA) :
            Except String (Option NFA)) = .ok (some a0) := ha
        exact Option.noConfusion (Except.ok.inj ha)
      have hstacc : StAcc (some a0)
          ([] ++ ((PRINS.partition_log_by_component lv).map Prod.snd).flatten) :=
        stitchGo_spec models hgf _ [] none (some a0) [] ha rfl
      have hinv : SlicedInv a0 lv := by
        rw [PRINS.partition_log_by_component, partitionGo_flatten lv hlv []]
          at hstacc
        simpa using hstacc
      exact List.Forall₂.cons hinv (ih rr r0 hr hr0)

/-- Forall₂ gives, for each left element, a right partner. -/
theorem forall2_exists_right {α β : Type} {P : α → β → Prop} :
    ∀ {l1 : List α} {l2 : List β}, List.Forall₂ P l1 l2 →
    ∀ a ∈ l1, ∃ b ∈ l2, P a b := by
  intro l1 l2 h
  induction h with
  | nil => simp
  | cons hh _ ih =>
    intro a ha
    rcases List.mem_cons.mp ha with rfl | ha
    · exact ⟨_, by simp, hh⟩
    · obtain ⟨b, hb, hp⟩ := ih a ha
      exact ⟨b, by simp [hb], hp⟩

/-- Forall₂ gives, for each right element, a left partner. -/
theorem forall2_exists_left {α β : Type} {P : α → β → Prop} :
    ∀ {l1 : List α} {l2 : List β}, List.Forall₂ P l1 l2 →
    ∀ b ∈ l2, ∃ a ∈ l1, P a b := by
  intro l1 l2 h
  induction h with
  | nil => simp
  | cons hh _ ih =>
    intro b hb
    rcases List.mem_cons.mp hb with rfl | hb
    · exact ⟨_, by simp, hh⟩
    · obtain ⟨a, ha, hp⟩ := ih b hb
      exact ⟨a, by simp [ha], hp⟩

/-- Union fold over finsets: each member's contribution and the seed are
contained in the fold. -/
theorem foldl_union_sub {α β : Type} [DecidableEq β] (f : α → Finset β) :
    ∀ (l : List α) (acc : Finset β),
    (∀ x ∈ l, f x ⊆ l.foldl (fun a y => a ∪ f y) acc) ∧
      acc ⊆ l.foldl (fun a y => a ∪ f y) acc := by
  intro l
  induction l with
  | nil => exact fun acc => ⟨by simp, le_refl acc⟩
  | cons x r ih =>
    intro acc
    rw [List.foldl_cons]
    obtain ⟨h1, h2⟩ := ih (acc ∪ f x)
    refine ⟨?_, le_trans Finset.subset_union_left h2⟩
    intro y hy
    rcases List.mem_cons.mp hy with rfl | hy
    · exact le_trans Finset.subset_union_right h2
    · exact h1 y hy

/-- Entries of the union's transition fold come from the accumulator or
one of the models. -/
theorem union_fold_mem : ∀ (l : List NFA) (acc : TransList),
    ∀ e ∈ l.foldl (fun a mo => dictMergeT a mo.transitions) acc,
    e ∈ acc ∨ ∃ mo ∈ l, e ∈ mo.transitions := by
  intro l
  induction l with
  | nil => exact fun acc e he => Or.inl he
  | cons mo rest ih =>
    intro acc e he
    rw [List.foldl_cons] at he
    rcases ih _ e he with h | ⟨mo', hmo', hmem⟩
    · rcases dictMergeT_mem _ _ e h with h1 | h1
      · exact Or.inl h1
      · exact Or.inr ⟨mo, by simp, h1⟩
    · exact Or.inr ⟨mo', by simp [hmo'], hmem⟩

/-- In the union's transition fold over state-disjoint models, every
binding of the accumulator and of each model survives unchanged. -/
theorem union_fold_lookup :
    ∀ (l : List NFA) (acc : TransList) (S : Finset String),
    (∀ e ∈ acc, e.1.1 ∈ S) →
    (∀ mo ∈ l, ∀ e ∈ mo.transitions, e.1.1 ∈ mo.states) →
    (∀ mo ∈ l, ∀ s ∈ S, s ∉ mo.states) →
    List.Pairwise (fun a b => ∀ s ∈ a.states, s ∉ b.states) l →
    (∀ k v, lookupT acc k = some v →
      lookupT (l.foldl (fun a mo => dictMergeT a mo.transitions) acc) k
        = some v) ∧
    (∀ mo ∈ l, ∀ k v, lookupT mo.transitions k = some v →
      lookupT (l.foldl (fun a mo => dictMergeT a mo.transitions) acc) k
        = some v) := by
  intro l
  induction l with
  | nil => exact fun acc S _ _ _ _ => ⟨fun k v h => h, by simp⟩
  | cons mo rest ih =>
    intro acc S hacc hsrc hdis hpw
    rw [List.foldl_cons]
    have hacc' : ∀ e ∈ dictMergeT acc mo.transitions,
        e.1.1 ∈ S ∪ mo.states := by
      intro e he
      rcases dictMergeT_mem _ _ e he with h | h
      · exact Finset.mem_union_left _ (hacc e h)
      · exact Finset.mem_union_right _ (hsrc mo (by simp) e h)
    have hdis' : ∀ mo' ∈ rest, ∀ s ∈ S ∪ mo.states, s ∉ mo'.states := by
      intro mo' hmo' s hs
      rcases Finset.mem_union.mp hs with h | h
      · exact hdis mo' (by simp [hmo']) s h
      · exact (List.pairwise_cons.mp hpw).1 mo' hmo' s h
    obtain ⟨ih1, ih2⟩ := ih (dictMergeT acc mo.transitions) (S ∪ mo.states)
      hacc' (fun mo' hmo' => hsrc mo' (by simp [hmo'])) hdis'
      (List.pairwise_cons.mp hpw).2
    constructor
    · intro k v h
      refine ih1 k v ?_
      refine lookupT_dictMergeT_left _ _ k v h ?_
      exact keys_disjoint_of_states acc mo.transitions S mo.states hacc
        (hsrc mo (by simp)) (hdis mo (by simp)) k v h
    · intro mo' hmo' k v h
      rcases List.mem_cons.mp hmo' with rfl | hmo'
      · refine ih1 k v ?_
        refine lookupT_dictMergeT_right _ _ k v h ?_
        cases hka : lookupT acc k with
        | none => rfl
        | some w =>
          exact absurd (hsrc mo' (by simp) (k, v) (lookupT_mem _ _ _ h))
            (hdis mo' (by simp) k.1 (hacc (k, w) (lookupT_mem _ _ _ hka)))
      · exact ih2 mo' hmo' k v h

/-- The disjoint renaming pass preserves the stitching invariant,
execution by execution. -/
theorem unionRename_sliced : ∀ (appended : List NFA)
    (τs : List (List LogEntry)) (pad : Int),
    List.Forall₂ (fun a τ => SlicedInv a τ) appended τs →
    List.Forall₂ (fun a τ => SlicedInv a τ) (unionRename appended pad) τs := by
  intro appended
  induction appended with
  | nil =>
    intro τs pad h
    cases h
    exact List.Forall₂.nil
  | cons a rest ih =>
    intro τs pad h
    cases h with
    | cons hh ht =>
      rw [unionRename]
      exact List.Forall₂.cons (rename_good a pad _ hh) (ih _ _ ht)

set_option maxHeartbeats 2000000 in
/-- The union of stitching-invariant models keeps the entry invariant and
walks each model's trace from the merged initial state to an accepting
state. -/
theorem union_nfa_models_good (appended : List NFA)
    (τs : List (List LogEntry)) (system : String) (msys : NFA)
    (h : NFA.union_nfa_models appended system = .ok msys)
    (hall : List.Forall₂ (fun a τ => SlicedInv a τ) appended τs) :
    GInv msys ∧ ∀ τ ∈ τs, ∃ f ∈ msys.accepting_states,
      WalkT msys.transitions msys.initial_state τ f := by
  have hren := unionRename_sliced appended τs 0 hall
  have hrg : ∀ mo ∈ unionRename appended 0, GInv mo := by
    intro mo hmo
    obtain ⟨τ, _, hP⟩ := forall2_exists_right hren mo hmo
    exact hP.2.1
  unfold NFA.union_nfa_models at h
  obtain ⟨p, hp, h2⟩ := bind_ok_inv _ _ _ h
  obtain ⟨hlt, hsubQ, hpe⟩ := (merge_states_ok_iff _ _ _).mp hp
  subst hpe
  have hmr := Except.ok.inj h2
  subst hmr
  have hfold_ents : ∀ e ∈ (unionRename appended 0).foldl
      (fun a mo => dictMergeT a mo.transitions) [],
      e.1.1 ∈ (unionRename appended 0).foldl (fun a mo => a ∪ mo.states) ∅ ∧
      e.2 ⊆ (unionRename appended 0).foldl (fun a mo => a ∪ mo.states) ∅ ∧
      e.2.Nonempty ∧ e.1.2.2 = (none : Option Guard) := by
    intro e he
    rcases union_fold_mem (unionRename appended 0) [] e he with
      h0 | ⟨mo, hmo, hmem⟩
    · cases h0
    · obtain ⟨a1, a2, a3, a4⟩ := hrg mo hmo e hmem
      have hsub := (foldl_union_sub (fun mo => mo.states)
        (unionRename appended 0) ∅).1 mo hmo
      exact ⟨hsub a1, a2.trans hsub, a3, a4⟩
  constructor
  · intro e he
    exact mergeRedirect_entries
      ((unionRename appended 0).map (fun mo => mo.initial_state)).toFinset
      (joinComma (natsortedF
        ((unionRename appended 0).map (fun mo => mo.initial_state)).toFinset))
      ((unionRename appended 0).foldl (fun a mo => a ∪ mo.states) ∅)
      (((unionRename appended 0).foldl (fun a mo => a ∪ mo.states) ∅ \
          ((unionRename appended 0).map (fun mo => mo.initial_state)).toFinset) ∪
        {joinComma (natsortedF
          ((unionRename appended 0).map (fun mo => mo.initial_state)).toFinset)})
      (fun s hs => mergeSigma_mem _ _ _ s hs)
      ((unionRename appended 0).foldl (fun a mo => dictMergeT a mo.transitions) [])
      [] hfold_ents (by simp) e he
  · intro τ hτ
    obtain ⟨mo, hmo, hinvmo⟩ := forall2_exists_left hren τ hτ
    obtain ⟨hini, hgi, f, hacc, hfst, hw⟩ := hinvmo
    have hlook := (union_fold_lookup (unionRename appended 0) [] ∅
      (by simp) (fun mo' hmo' e he => (hrg mo' hmo' e he).1)
      (by simp) (unionRename_pairwise appended 0)).2
    have hext : ExtT (fun s => s) mo.transitions
        ((unionRename appended 0).foldl
          (fun a mo => dictMergeT a mo.transitions) []) := by
      intro q w d hl _
      refine ⟨d, hlook mo hmo (q, w) d hl, ?_⟩
      intro x hx
      obtain ⟨y, hy, rfl⟩ := Finset.mem_image.mp hx
      exact hy
    have hwb := WalkT.map hext hw
    have hwm := WalkT.map (ExtT_mergeRedirect
      ((unionRename appended 0).map (fun mo => mo.initial_state)).toFinset
      (joinComma (natsortedF
        ((unionRename appended 0).map (fun mo => mo.initial_state)).toFinset))
      ((unionRename appended 0).foldl
        (fun a mo => dictMergeT a mo.transitions) [])) hwb
    have hinitmem : mo.initial_state ∈
        ((unionRename appended 0).map (fun mo => mo.initial_state)).toFinset :=
      List.mem_toFinset.mpr (List.mem_map.mpr ⟨mo, hmo, rfl⟩)
    have hσi : mergeSigma
        ((unionRename appended 0).map (fun mo => mo.initial_state)).toFinset
        (joinComma (natsortedF
          ((unionRename appended 0).map (fun mo => mo.initial_state)).toFinset))
        mo.initial_state
        = joinComma (natsortedF
          ((unionRename appended 0).map (fun mo => mo.initial_state)).toFinset) := by
      rw [mergeSigma, if_pos hinitmem]
    rw [hσi] at hwm
    have hfacc : f ∈ (unionRename appended 0).foldl
        (fun a mo => a ∪ mo.accepting_states) ∅ :=
      (foldl_union_sub (fun mo => mo.accepting_states)
        (unionRename appended 0) ∅).1 mo hmo
        (by rw [hacc]; exact Finset.mem_singleton_self f)
    refine ⟨mergeSigma
      ((unionRename appended 0).map (fun mo => mo.initial_state)).toFinset
      (joinComma (natsortedF
        ((unionRename appended 0).map (fun mo => mo.initial_state)).toFinset)) f,
      ?_, ?_⟩
    · exact mergeSigma_mem_acc _ _ _ f hfacc
    · exact hwm

/-! ## C1: soundness of construction on training traces

The unrestricted claim fails: `slice` has an `ignore_guard` retry
(NFA.py lines 117-121) that records guarded transitions whose guards the
training trace violates, while `nfa_check_acceptance` (lines 361-386) has
no such retry, so a guarded component model can make the pipeline build a
system model that rejects one of its own training traces
(`C1_counterexample`).  When every component model is guard-free -- the
case the construction's bookkeeping actually supports -- soundness holds:
every training trace is accepted by the built system model. -/

/-- C1 (amended to guard-free component models): whenever the pipeline
`run` succeeds on a corpus -- stitching (partition, slice, append), union
of the per-execution models, and the final `rename_states(0)` -- and every
component model carries no guards, the resulting system model
`nfa_check_acceptance`s every training trace of the corpus. -/
theorem C1_run_accepts_training_guardfree
    (l_vectors : List (List LogEntry)) (models : ModelMap) (system : String)
    (msys : NFA) (hgf : ∀ p ∈ models, guardFreeT p.2.transitions)
    (hrun : PRINS.run_msys l_vectors models system = .ok msys) :
    ∀ τ ∈ l_vectors, msys.nfa_check_acceptance τ = .ok true := by
  unfold PRINS.run_msys at hrun
  obtain ⟨stitched, hst, h2⟩ := bind_ok_inv _ _ _ hrun
  obtain ⟨appended, hap, h3⟩ := bind_ok_inv _ _ _ h2
  obtain ⟨msys0, hun, h4⟩ := bind_ok_inv _ _ _ h3
  have hmr := Except.ok.inj h4
  subst hmr
  have hforall := stitchAll_spec models hgf l_vectors stitched appended hst hap
  obtain ⟨hginv0, hwalks⟩ :=
    union_nfa_models_good appended l_vectors system msys0 hun hforall
  intro τ hτ
  obtain ⟨f, hf, hw⟩ := hwalks τ hτ
  have hw' : WalkT (msys0.rename_states 0).transitions
      (msys0.rename_states 0).initial_state τ (msys0.rename_map 0 f) :=
    WalkT.map (ExtT_renameTrans (msys0.rename_map 0) msys0.transitions) hw
  have hgf' : guardFreeT (msys0.rename_states 0).transitions := by
    intro e he
    exact (renameTrans_entries (msys0.rename_map 0) msys0.states
      (msys0.states.image (msys0.rename_map 0))
      (fun s hs => Finset.mem_image_of_mem _ hs) msys0.transitions []
      (fun e' he' => ⟨(hginv0 e' he').1, (hginv0 e' he').2.1,
        (hginv0 e' he').2.2.2⟩)
      (by simp) e he).2.2.2
  exact nfa_check_acceptance_of_walk _ hgf' τ (msys0.rename_map 0 f) hw'
    (Finset.mem_image_of_mem _ hf)

/-- The guarded training corpus that defeats the unrestricted claim: two
executions of component `C`, the first violating the guard of `cexModel`'s
`a`-transition. -/
def c1corpus : List (List LogEntry) := [[entryA2, entryB], [entryA1, entryB]]

/-- C1 counterexample: on this corpus with the guarded component model the
pipeline succeeds end to end, yet the built system model rejects the first
training trace -- `slice`'s `ignore_guard` retry (NFA.py lines 117-121)
records a guarded transition whose guard the trace violates, and
`nfa_check_acceptance` (lines 361-386) has no such retry. -/
theorem C1_counterexample :
    (PRINS.run_msys c1corpus [("C", cexModel)] "sys").isOk = true ∧
    (PRINS.run_msys c1corpus [("C", cexModel)] "sys").bind
      (fun m => m.nfa_check_acceptance [entryA2, entryB]) = .ok false := by
  decide

/-- The guard-free component model of the C1 witness run:
`0 -a-> 1 -b-> 2`. -/
def c1freeModel : NFA :=
  { component := "C"
    alphabet := {("a", none), ("b", none)}
    states := {"0", "1", "2"}
    initial_state := "0"
    accepting_states := {"2"}
    transitions := [(("0", ("a", none)), {"1"}), (("1", ("b", none)), {"2"})] }

/-- Entry `a` with no values, for the guard-free witness run. -/
def c1entryA : LogEntry := { component := "C", tid := "a", values := [] }

/-- The two-execution guard-free training corpus of the C1 witness. -/
def c1corpusFree : List (List LogEntry) :=
  [[c1entryA, entryB], [c1entryA, entryB]]

/-- The system model the pipeline builds on the witness corpus. -/
def c1msysW : NFA :=
  { component := "sys"
    alphabet := {("a", none), ("b", none)}
    states := {"0", "1", "2", "3", "4"}
    initial_state := "0"
    accepting_states := {"2", "4"}
    transitions := [(("0", ("a", none)), {"1", "3"}),
                    (("1", ("b", none)), {"2"}),
                    (("3", ("b", none)), {"4"})] }

/-- C1 witness: on a concrete guard-free two-execution corpus the
hypotheses hold and the built system model accepts both training
traces. -/
theorem C1_run_accepts_training_guardfree_witness :
    (∀ p ∈ ([("C", c1freeModel)] : ModelMap), guardFreeT p.2.transitions) ∧
    (PRINS.run_msys c1corpusFree [("C", c1freeModel)] "sys" = .ok c1msysW) ∧
    ∀ τ ∈ c1corpusFree, c1msysW.nfa_check_acceptance τ = .ok true :=
  ⟨by decide, by decide,
   C1_run_accepts_training_guardfree c1corpusFree [("C", c1freeModel)] "sys"
     c1msysW (by decide) (by decide)⟩

end Prins

